import Mathlib

/-!
Shallow embedding of the algorithmic cores of two Blender editor files:
source/blender/editors/sculpt_paint/sculpt_expand.c (mesh expand falloff
fields and the expand operator session) and
source/blender/editors/gpencil/gpencil_fill.c (raster bucket fill).

Float values are modelled as rationals (reals for the spherical metric,
which takes square roots).  FLT_MAX is the exact value of the C constant,
(2^24 - 1) * 2^104 = 2^128 - 2^104.  Arrays indexed by vertex/face/pixel
ids are modelled as total functions updated pointwise, and C while-loops
whose termination is not structural are given explicit fuel.
-/

/-- The value of the C constant FLT_MAX, as a rational. -/
def FLT_MAX : ℚ := 2^128 - 2^104

/-- Pointwise update of an array modelled as a function. -/
def upd {α β : Type} [DecidableEq α] (f : α → β) (i : α) (x : β) : α → β :=
  fun j => if j = i then x else f j

/-! ### sculpt_expand.c : deleting a face set id by relaxation (C2)

`sculpt_expand_delete_face_set_id` (sculpt_expand.c:1071-1118).  The mesh is
abstracted by `facesVerts` (the vertices of the loops of a face, from
mpoly/mloop) and `vertFaces` (the faces incident to a vertex, the pmap
argument).  BLI_LINKSTACK is a LIFO stack whose POP returns 0 on an empty
stack; the inner `while (f_index = BLI_LINKSTACK_POP(queue))` therefore also
stops when the popped face index is the literal 0, leaving the rest of the
queue in place. -/

/-- The `other_id` computation inside the pop loop of
sculpt_expand_delete_face_set_id: scan every face sharing a vertex with
face `f` and remember the last face-set id different from `delete_id`. -/
def deleteOtherId (facesVerts vertFaces : Nat → List Nat) (fs : Nat → Int)
    (delete_id : Int) (f : Nat) : Int :=
  (facesVerts f).foldl
    (fun acc v =>
      (vertFaces v).foldl
        (fun acc2 nb => if fs nb ≠ delete_id then fs nb else acc2) acc)
    delete_id

/-- The inner pop loop of sculpt_expand_delete_face_set_id.  Returns the
queue remnant after the loop exits, the accumulated `queue_next`, and the
updated face-set array.  Popping the face index 0 exits the loop (the C
value 0 is falsy) and popping from the empty stack yields 0 as well. -/
def deleteInner (facesVerts vertFaces : Nat → List Nat) (delete_id : Int) :
    List Nat → List Nat → (Nat → Int) → List Nat × List Nat × (Nat → Int)
  | [], qnext, fs => ([], qnext, fs)
  | f :: rest, qnext, fs =>
    if f = 0 then (rest, qnext, fs)
    else
      let oid := deleteOtherId facesVerts vertFaces fs delete_id f
      if oid ≠ delete_id then
        deleteInner facesVerts vertFaces delete_id rest qnext (upd fs f oid)
      else
        deleteInner facesVerts vertFaces delete_id rest (f :: qnext) fs

/-- The outer `while (BLI_LINKSTACK_SIZE(queue))` loop of
sculpt_expand_delete_face_set_id, with fuel.  Each iteration runs the inner
pop loop and then swaps `queue` and `queue_next` (so the inner loop remnant
becomes the new `queue_next`).  Returns `none` when the fuel runs out before
the queue empties. -/
def deleteOuter (facesVerts vertFaces : Nat → List Nat) (delete_id : Int) :
    Nat → List Nat → List Nat → (Nat → Int) → Option (Nat → Int)
  | 0, _, _, _ => none
  | fuel+1, queue, qnext, fs =>
    if queue.isEmpty then some fs
    else
      let r := deleteInner facesVerts vertFaces delete_id queue qnext fs
      deleteOuter facesVerts vertFaces delete_id fuel r.2.1 r.1 r.2.2

/-- sculpt_expand_delete_face_set_id (sculpt_expand.c:1071-1118): push every
face carrying `delete_id` (BLI_LINKSTACK_PUSH prepends, so ascending face
indices end up popped in descending order), then relax until the queue
empties.  `none` means the given fuel was not enough iterations of the
outer loop. -/
def sculpt_expand_delete_face_set_id (facesVerts vertFaces : Nat → List Nat)
    (totface : Nat) (delete_id : Int) (fs : Nat → Int) (fuel : Nat) :
    Option (Nat → Int) :=
  let q0 := (List.range totface).foldl
    (fun acc i => if fs i = delete_id then i :: acc else acc) []
  deleteOuter facesVerts vertFaces delete_id fuel q0 [] fs

/-- Failing input for C2: faces 1 and 2 share vertex 10 and both carry the
face set id 5 being deleted; face 0 carries id 7 and touches neither.  The
island 1-2 can never adopt another id. -/
def c2FacesVerts : Nat → List Nat := fun f => if f = 1 ∨ f = 2 then [10] else []

/-- Vertex-to-face incidence map of the C2 failing input. -/
def c2VertFaces : Nat → List Nat := fun v => if v = 10 then [1, 2] else []

/-- Face-set array of the C2 failing input: face 0 has id 7, faces 1 and 2
have the id 5 that is being deleted. -/
def c2FaceSets : Nat → Int := fun i => if i = 0 then 7 else if i ≤ 2 then 5 else 0

/-! ### sculpt_expand.c : the expand session on the mask target (C1)

The operator session with the mask data target, snap disabled (its default)
and the pieces of ExpandCache that the mask path reads.  The per-vertex
update is sculpt_expand_mask_update_task_cb (sculpt_expand.c:519-563); the
spec requires every mesh vertex to be visited exactly once per update, so
the PBVH node partition is modelled as a single pass over the vertex range. -/

/-- The fields of ExpandCache used by the mask target (snap stays off). -/
structure ExpandCacheMask where
  invert : Bool
  preserve : Bool
  falloff_gradient : Bool
  falloff_factor : Nat → ℚ
  max_falloff_factor : ℚ
  active_factor : ℚ
  initial_mask : Nat → ℚ

/-- sculpt_expand_state_get (sculpt_expand.c:470-487) restricted to the
non-snap path: enabled iff the falloff factor is at or below the active
factor, then inverted if the invert modifier is on. -/
def sculpt_expand_state_get (c : ExpandCacheMask) (i : Nat) : Bool :=
  let enabled := decide (c.falloff_factor i ≤ c.active_factor)
  if c.invert then !enabled else enabled

/-- sculpt_expand_gradient_falloff_get (sculpt_expand.c:505-517). -/
def sculpt_expand_gradient_falloff_get (c : ExpandCacheMask) (i : Nat) : ℚ :=
  if !c.falloff_gradient then 1
  else if c.invert then
    (c.falloff_factor i - c.active_factor) /
      (c.max_falloff_factor - c.active_factor)
  else 1 - c.falloff_factor i / c.active_factor

/-- One vertex of sculpt_expand_mask_update_task_cb (sculpt_expand.c:519-563):
write `clamp(new_mask, 0, 1)` unless `new_mask` already equals the stored
mask. -/
def maskUpdateVertex (c : ExpandCacheMask) (mask : Nat → ℚ) (i : Nat) :
    Nat → ℚ :=
  let initial := mask i
  let enabled := sculpt_expand_state_get c i
  let new0 := if enabled then sculpt_expand_gradient_falloff_get c i else 0
  let new1 := if c.preserve then max new0 (c.initial_mask i) else new0
  if new1 = initial then mask else upd mask i (min 1 (max 0 new1))

/-- sculpt_expand_update_for_vertex (sculpt_expand.c:730-776) for the mask
target: refresh the active factor from the hovered vertex (falling back to
the max falloff factor when the cursor is off the mesh) and reapply the
enabled state to every vertex. -/
def sculpt_expand_update_for_vertex (totvert : Nat)
    (st : ExpandCacheMask × (Nat → ℚ)) (vertex : Option Nat) :
    ExpandCacheMask × (Nat → ℚ) :=
  let c := st.1
  let c1 := { c with active_factor :=
    match vertex with
    | none => c.max_falloff_factor
    | some v => c.falloff_factor v }
  (c1, (List.range totvert).foldl (maskUpdateVertex c1) st.2)

/-- The modal events of the expand session that the mask path reacts to. -/
inductive ExpandEvent : Type
  | pointerMove (vertex : Option Nat)
  | toggleInvert
  | togglePreserve
  | toggleGradient

/-- One modal event of sculpt_expand_modal (sculpt_expand.c:960-1069):
modifier toggles only flip their flag (the re-apply happens on the next
mouse move, since the modal-map event is not MOUSEMOVE), and a pointer move
runs sculpt_expand_update_for_vertex. -/
def expandStep (totvert : Nat) (st : ExpandCacheMask × (Nat → ℚ)) :
    ExpandEvent → ExpandCacheMask × (Nat → ℚ)
  | ExpandEvent.pointerMove v => sculpt_expand_update_for_vertex totvert st v
  | ExpandEvent.toggleInvert => ({ st.1 with invert := !st.1.invert }, st.2)
  | ExpandEvent.togglePreserve => ({ st.1 with preserve := !st.1.preserve }, st.2)
  | ExpandEvent.toggleGradient =>
      ({ st.1 with falloff_gradient := !st.1.falloff_gradient }, st.2)

/-- sculpt_expand_cancel (sculpt_expand.c:461-468): free the expand cache
and clear the status text.  Nothing is written back to the mesh, so the
mask channel keeps whatever the last update wrote. -/
def sculpt_expand_cancel (st : ExpandCacheMask × (Nat → ℚ)) : Nat → ℚ :=
  st.2

/-- A whole mask-target session: sculpt_expand_invoke stores the initial
mask snapshot into the cache (sculpt_expand_initial_state_store,
sculpt_expand.c:698-720) and runs the initial update at the initial active
vertex (line 1195); then the events run, then the operator is cancelled.
Returns the mesh mask after cancellation. -/
def runExpandSessionCancelled (totvert : Nat) (c0 : ExpandCacheMask)
    (mask0 : Nat → ℚ) (initialVertex : Nat) (events : List ExpandEvent) :
    Nat → ℚ :=
  let cStored := { c0 with initial_mask := mask0 }
  let st0 := sculpt_expand_update_for_vertex totvert (cStored, mask0)
    (some initialVertex)
  sculpt_expand_cancel (events.foldl (expandStep totvert) st0)

/-- Failing input for C1: a cache over a single vertex whose falloff factor
is 0, all modifiers off. -/
def c1Cache : ExpandCacheMask :=
  { invert := false, preserve := false, falloff_gradient := false
    falloff_factor := fun _ => 0, max_falloff_factor := 0
    active_factor := 0, initial_mask := fun _ => 0 }

/-- Failing input for C1: the mesh mask starts all-zero. -/
def c1Mask0 : Nat → ℚ := fun _ => 0

/-! ### sculpt_expand.c : normal falloff reset and smoothing (C5)

sculpt_expand_normal_falloff_create (sculpt_expand.c:177-222).  After the
flood fill fills `dists`, lines 203-205 overwrite every entry with FLT_MAX,
and lines 207-217 then run two rounds of in-place neighbor averaging.  The
flood-fill result is therefore dead; the model takes it as an arbitrary
input array `dists0`. -/

/-- Lines 203-217 of sculpt_expand_normal_falloff_create: reset every entry
to FLT_MAX, then two in-place rounds of `dists[i] = avg of dists over the
neighbors of i` (the average reads entries already updated in the same
round, exactly as the C code does). -/
def sculpt_expand_normal_falloff_create_post (totvert : Nat)
    (adj : Nat → List Nat) (dists0 : Nat → ℚ) : Nat → ℚ :=
  let d1 := (List.range totvert).foldl (fun d i => upd d i FLT_MAX) dists0
  (List.range 2).foldl
    (fun d _ =>
      (List.range totvert).foldl
        (fun d i =>
          upd d i (((adj i).foldl (fun a n => a + d n) 0) / ((adj i).length : ℚ)))
        d)
    d1

/-- Failing input for C5: two vertices, each the single neighbor of the
other. -/
def c5Adj : Nat → List Nat := fun i => if i = 0 then [1] else if i = 1 then [0] else []

/-! ### sculpt_expand.c : breadth-first falloffs (C6 and C3)

The boundary-topology falloff (sculpt_expand.c:259-321) runs an explicit
FIFO BFS over the vertex adjacency graph, seeded with the vertices of the
boundary curves found for every symmetry origin (the boundary extraction
itself,  SCULPT_boundary_data_init, is an external service; the union of the
seed lists it produced is taken as an input here).  The topology falloff
(sculpt_expand.c:135-152) drives the same kind of traversal through
SCULPT_floodfill_execute with the callback of lines 121-133. -/

/-- State of the BFS of sculpt_expand_boundary_topology_falloff_create:
the GSQueue (FIFO: pop at the head, push at the tail), the visited bitmap
and the float distance array. -/
structure BfsSt where
  queue : List Nat
  visited : Nat → Bool
  dists : Nat → ℚ

/-- The body of the neighbor iteration of the BFS
(sculpt_expand.c:300-307): skip visited neighbors, otherwise store
`dists[v] + 1`, mark visited and push. -/
def bfsVisitNbr (v : Nat) (s : BfsSt) (n : Nat) : BfsSt :=
  if s.visited n then s
  else
    { queue := s.queue ++ [n]
      visited := upd s.visited n true
      dists := upd s.dists n (s.dists v + 1) }

/-- Process all neighbors of the popped vertex `v`. -/
def bfsProcess (adj : Nat → List Nat) (v : Nat) (s : BfsSt) : BfsSt :=
  (adj v).foldl (bfsVisitNbr v) s

/-- The `while (!BLI_gsqueue_is_empty(queue))` loop of
sculpt_expand_boundary_topology_falloff_create, with fuel. -/
def bfsRun (adj : Nat → List Nat) : Nat → BfsSt → BfsSt
  | 0, s => s
  | fuel+1, s =>
    match s.queue with
    | [] => s
    | v :: rest => bfsRun adj fuel (bfsProcess adj v { s with queue := rest })

/-- Initial BFS state: every seed pushed (possibly with repetitions, as the
per-symmetry boundary loops do) and enabled in the bitmap; distances are
the calloc zeros. -/
def bfsInit (seeds : List Nat) : BfsSt :=
  { queue := seeds, visited := fun n => decide (n ∈ seeds), dists := fun _ => 0 }

/-- sculpt_expand_boundary_topology_falloff_create (sculpt_expand.c:259-321):
if no boundary vertex was found the calloc zeros are returned as is;
otherwise run the BFS to exhaustion (the fuel `seeds.length + totvert` is
proved sufficient below) and finally overwrite every unvisited vertex with
FLT_MAX. -/
def sculpt_expand_boundary_topology_falloff_create (totvert : Nat)
    (adj : Nat → List Nat) (seeds : List Nat) : Nat → ℚ :=
  let s0 := bfsInit seeds
  if seeds.isEmpty then s0.dists
  else
    let sF := bfsRun adj (seeds.length + totvert) s0
    (List.range totvert).foldl
      (fun d i => if sF.visited i then d else upd d i FLT_MAX) sF.dists

/-- The body of mask_expand_topology_floodfill_cb (sculpt_expand.c:121-133)
combined with one visit of the flood-fill engine: a non-duplicate edge
stores `dists[from] + 1`, a duplicate edge copies `dists[from]`.  The
neighbor comes tagged with its is_duplicate flag. -/
def ffVisitNbr (v : Nat) (s : BfsSt) (nd : Nat × Bool) : BfsSt :=
  if s.visited nd.1 then s
  else
    { queue := s.queue ++ [nd.1]
      visited := upd s.visited nd.1 true
      dists := upd s.dists nd.1 (if nd.2 then s.dists v else s.dists v + 1) }

/-- Process all tagged neighbors of the popped vertex `v`. -/
def ffProcess (adjD : Nat → List (Nat × Bool)) (v : Nat) (s : BfsSt) : BfsSt :=
  (adjD v).foldl (ffVisitNbr v) s

/-- Modelled from the spec: SCULPT_floodfill_execute and its queue
(sculpt.c, not part of this repository) are described as a breadth-first
flood fill from the origin set, so the loop is the same FIFO traversal as
the boundary BFS, with the visitor of sculpt_expand.c:121-133. -/
def ffRun (adjD : Nat → List (Nat × Bool)) : Nat → BfsSt → BfsSt
  | 0, s => s
  | fuel+1, s =>
    match s.queue with
    | [] => s
    | v :: rest => ffRun adjD fuel (ffProcess adjD v { s with queue := rest })

/-- sculpt_expand_topology_falloff_create (sculpt_expand.c:135-152): calloc
zeros, seed with the origin set (the symmetry origins resolved by
SCULPT_floodfill_add_initial_with_symmetry, taken as an input list), run
the flood fill.  Unreached vertices keep the calloc zero. -/
def sculpt_expand_topology_falloff_create (totvert : Nat)
    (adjD : Nat → List (Nat × Bool)) (seeds : List Nat) : Nat → ℚ :=
  (ffRun adjD (seeds.length + totvert) (bfsInit seeds)).dists

/-- Specification side: a path of `k` counted hops from the seed set to
`v` along the plain adjacency graph. -/
inductive Reach (adj : Nat → List Nat) (seeds : List Nat) : Nat → Nat → Prop
  | seed : ∀ {v}, v ∈ seeds → Reach adj seeds v 0
  | step : ∀ {u v k}, Reach adj seeds u k → v ∈ adj u → Reach adj seeds v (k+1)

/-- Specification side: `k` is the shortest hop count from the seed set to
`v`. -/
def IsShortestHops (adj : Nat → List Nat) (seeds : List Nat) (v k : Nat) : Prop :=
  Reach adj seeds v k ∧ ∀ j, Reach adj seeds v j → k ≤ j

/-- Specification side for the duplicate-tagged graph: a non-duplicate edge
costs one hop and a duplicate edge costs nothing, as the claim for the
topology falloff demands. -/
inductive ReachD (adjD : Nat → List (Nat × Bool)) (seeds : List Nat) :
    Nat → Nat → Prop
  | seed : ∀ {v}, v ∈ seeds → ReachD adjD seeds v 0
  | step : ∀ {u v k}, ReachD adjD seeds u k → (v, false) ∈ adjD u →
      ReachD adjD seeds v (k+1)
  | dup : ∀ {u v k}, ReachD adjD seeds u k → (v, true) ∈ adjD u →
      ReachD adjD seeds v k

/-- Plain adjacency underlying a duplicate-tagged adjacency. -/
def projAdj (adjD : Nat → List (Nat × Bool)) : Nat → List Nat :=
  fun u => (adjD u).map Prod.fst

/-- Counterexample graph for C3: a diamond 0-1-3 and 0-2-3 where the edge
between 2 and 3 is tagged as a duplicate (both directions). -/
def c3Adj : Nat → List (Nat × Bool) := fun v =>
  if v = 0 then [(1, false), (2, false)]
  else if v = 1 then [(0, false), (3, false)]
  else if v = 2 then [(0, false), (3, true)]
  else if v = 3 then [(1, false), (2, true)]
  else []

/-- Witness graph for the amended C3: a two-vertex path with no duplicate
edges. -/
def c3WitnessAdj : Nat → List (Nat × Bool) := fun v =>
  if v = 0 then [(1, false)] else if v = 1 then [(0, false)] else []

/-- Witness graph for C6: a three-vertex path 0 - 1 - 2 plus the isolated
vertex 3. -/
def c6WitnessAdj : Nat → List Nat := fun v =>
  if v = 0 then [1] else if v = 1 then [0, 2] else if v = 2 then [1] else []

/-- Count of visited vertices below `totvert`, the decreasing part of the
BFS termination measure. -/
def visCount (totvert : Nat) (vis : Nat → Bool) : Nat :=
  ((Finset.range totvert).filter (fun v => vis v = true)).card

/-- Termination measure of the BFS loop: queue length plus unvisited
vertices. -/
def bfsPhi (totvert : Nat) (s : BfsSt) : Nat :=
  s.queue.length + (totvert - visCount totvert s.visited)

/-- The FIFO queue of a BFS always holds at most two distance layers: a
front block at distance `D` followed by a block at `D + 1`; when the front
block is empty the whole queue is. -/
def LayerInv (s : BfsSt) : Prop :=
  ∃ (D : Nat) (q1 q2 : List Nat), s.queue = q1 ++ q2 ∧
    (∀ x, x ∈ q1 → s.dists x = (D : ℚ)) ∧
    (∀ x, x ∈ q2 → s.dists x = ((D : ℚ) + 1)) ∧
    (q1 = [] → q2 = [])

/-- Full correctness invariant of the boundary-topology BFS. -/
structure BfsInv (adj : Nat → List Nat) (seeds : List Nat) (s : BfsSt) : Prop where
  qvis : ∀ x, x ∈ s.queue → s.visited x = true
  vcorrect : ∀ u, s.visited u = true →
    ∃ k : Nat, s.dists u = (k : ℚ) ∧ IsShortestHops adj seeds u k
  closed : ∀ u, s.visited u = true → u ∉ s.queue →
    ∀ n, n ∈ adj u → s.visited n = true
  layer : LayerInv s
  complete : ∀ w k, IsShortestHops adj seeds w k →
    (s.queue = [] ∨ ∃ x, s.queue.head? = some x ∧ (k : ℚ) ≤ s.dists x) →
    s.visited w = true

/-! ### sculpt_expand.c : spherical falloff (C7)

sculpt_expand_spherical_falloff_create (sculpt_expand.c:224-257).  Vertex
positions live in real 3-space; the symmetry count, the per-iteration
validity predicate (SCULPT_is_symmetry_iteration_valid) and the resolution
of a flipped origin to the nearest actual vertex (flip_v3_v3 followed by
SCULPT_nearest_vertex_get, whose -1 failure is modelled as none) are
external mesh services taken as inputs. -/

/-- Euclidean length of the difference of two 3-vectors (BLI len_v3v3). -/
noncomputable def len_v3v3 (a b : ℝ × ℝ × ℝ) : ℝ :=
  Real.sqrt ((a.1 - b.1)^2 + (a.2.1 - b.2.1)^2 + (a.2.2 - b.2.2)^2)

/-- FLT_MAX as a real, the initial value of the spherical distances. -/
noncomputable def FLT_MAXR : ℝ := 2^128 - 2^104

/-- Mesh data and external symmetry services consumed by the spherical
falloff build. -/
structure SphericalInput where
  totvert : Nat
  co : Nat → ℝ × ℝ × ℝ
  symm : Nat
  symmValid : Nat → Bool
  flippedNearest : Nat → Option Nat

/-- The origin vertex of symmetry iteration `it`: iteration 0 uses the
given vertex directly, iteration `it > 0` resolves the flipped position to
the nearest vertex (possibly failing). -/
def sphericalOriginOf (m : SphericalInput) (vertex : Nat) (it : Nat) :
    Option Nat :=
  if it = 0 then some vertex else m.flippedNearest it

/-- One symmetry iteration of sculpt_expand_spherical_falloff_create:
skipped when invalid or when nearest-vertex resolution fails (v == -1),
otherwise every in-range vertex takes the running minimum with the
Euclidean distance to the origin position. -/
noncomputable def sphericalStep (m : SphericalInput) (vertex : Nat)
    (d : Nat → ℝ) (it : Nat) : Nat → ℝ :=
  if m.symmValid it then
    match sphericalOriginOf m vertex it with
    | some v => fun i =>
        if i < m.totvert then min (d i) (len_v3v3 (m.co v) (m.co i)) else d i
    | none => d
  else d

/-- sculpt_expand_spherical_falloff_create (sculpt_expand.c:224-257). -/
noncomputable def sculpt_expand_spherical_falloff_create (m : SphericalInput)
    (vertex : Nat) : Nat → ℝ :=
  (List.range (m.symm + 1)).foldl (sphericalStep m vertex) (fun _ => FLT_MAXR)

/-- The origins that contribute to the spherical falloff: the valid
symmetry iterations whose origin resolves to an actual vertex. -/
def sphericalOrigins (m : SphericalInput) (vertex : Nat) : List Nat :=
  (List.range (m.symm + 1)).filterMap
    (fun it => if m.symmValid it then sphericalOriginOf m vertex it else none)

/-- Witness mesh for C7: a single vertex at the world origin, no symmetry
axes enabled. -/
noncomputable def c7WitnessInput : SphericalInput :=
  { totvert := 1, co := fun _ => ((0 : ℝ), (0 : ℝ), (0 : ℝ)), symm := 0
    symmValid := fun _ => true, flippedNearest := fun _ => none }

/-! ### gpencil_fill.c : raster canvas and bucket fill (C4, C8, C9, C10)

The offscreen ImBuf is a linear float RGBA pixel array; get_pixel/set_pixel
(gpencil_fill.c:556-587) read and write one pixel by linear index.  The
algorithms only ever compare channels against 1.0 and write constant
colors, so channels are rationals here.  Red 1 marks boundary, green 1
marks filled, blue 1 marks the seed / stroke marks. -/

/-- RGBA pixel with float channels (r, g, b, a). -/
abbrev Px := ℚ × ℚ × ℚ × ℚ

/-- The offscreen ImBuf: dimensions and the linearly indexed pixel array. -/
structure GpImBuf where
  x : Int
  y : Int
  px : Int → Px

/-- get_pixel (gpencil_fill.c:556-569). -/
def get_pixel (c : GpImBuf) (idx : Int) : Px := c.px idx

/-- set_pixel (gpencil_fill.c:572-587). -/
def set_pixel (c : GpImBuf) (idx : Int) (col : Px) : GpImBuf :=
  { c with px := upd c.px idx col }

/-- Leak scan orientation constants (gpencil_fill.c:83-84). -/
def LEAK_HORZ : Nat := 0

/-- Leak scan orientation constants (gpencil_fill.c:83-84). -/
def LEAK_VERT : Nat := 1

/-- Offsets 1..limit in ascending order (empty when limit is not
positive), as the two loops of the horizontal leak check walk them. -/
def intRange1 (limit : Int) : List Int :=
  (List.range limit.toNat).map (fun k => ((k : Nat) : Int) + 1)

/-- Offsets limit..1 in descending order, as the two loops of the vertical
leak check walk them (pt = index minus-or-plus (limit - i) for
i = 0..limit-1). -/
def intRangeDesc (limit : Int) : List Int :=
  (List.range limit.toNat).map (fun k => limit - ((k : Nat) : Int))

/-- One scan arm of is_leak_narrow: walk the candidate pixel indices in
loop order; stop with true at the first boundary-red pixel, or at the
first index outside the allowed range (the canvas edge counts as a hit);
false if the scan runs out within the limit. -/
def leakScan (c : GpImBuf) (inB : Int → Bool) : List Int → Bool
  | [] => false
  | pt :: rest =>
    if inB pt then
      if (get_pixel c pt).1 = 1 then true else leakScan c inB rest
    else true

/-- is_leak_narrow (gpencil_fill.c:600-692).  The horizontal check scans
the vertical neighbors above (bounded by maxpixel) and below (bounded by
0); the vertical check scans the horizontal neighbors left and right,
bounded by the first and last linear index of the pixel row, computed with
C truncating division. -/
def is_leak_narrow (c : GpImBuf) (maxpixel limit index : Int) (type : Nat) :
    Bool :=
  if type = LEAK_HORZ then
    let t_a := leakScan c (fun pt => decide (pt ≤ maxpixel))
      ((intRange1 limit).map (fun i => index + c.x * i))
    let t_b := leakScan c (fun pt => decide (0 ≤ pt))
      ((intRange1 limit).map (fun i => index - c.x * i))
    t_a && t_b
  else if type = LEAK_VERT then
    let lowpix := Int.tdiv index c.x * c.x
    let higpix := lowpix + c.x - 1
    let t_a := leakScan c (fun pt => decide (lowpix ≤ pt))
      ((intRangeDesc limit).map (fun i => index - i))
    let t_b := leakScan c (fun pt => decide (pt ≤ higpix))
      ((intRangeDesc limit).map (fun i => index + i))
    t_a && t_b
  else false

/-- The green fill color of gpencil_boundaryfill_area. -/
def gpFillCol : Px := (0, 1, 0, 1)

/-- The four neighbor pushes of one flood-fill pop, in program order
(left, right, top, bottom), each guarded by its bounds check and by the
leak-narrow test at the popped pixel `v` (gpencil_fill.c:752-781). -/
def floodPushes (c : GpImBuf) (leak maxpixel v : Int) : List Int :=
  (if 0 ≤ v - 1 ∧ is_leak_narrow c maxpixel leak v LEAK_HORZ = false
    then [v - 1] else []) ++
  (if v + 1 ≤ maxpixel ∧ is_leak_narrow c maxpixel leak v LEAK_HORZ = false
    then [v + 1] else []) ++
  (if v + c.x ≤ maxpixel ∧ is_leak_narrow c maxpixel leak v LEAK_VERT = false
    then [v + c.x] else []) ++
  (if 0 ≤ v - c.x ∧ is_leak_narrow c maxpixel leak v LEAK_VERT = false
    then [v - c.x] else [])

/-- The `while (!BLI_stack_is_empty(stack))` loop of
gpencil_boundaryfill_area (gpencil_fill.c:741-783), with fuel.  BLI_stack
is LIFO: pushes prepend, pops take the head.  A popped pixel that is
neither boundary red nor fill green is painted green and its neighbors are
pushed; the leak test reads the canvas after the green write, as the C
code does. -/
def gpencil_boundaryfill_loop (leak : Int) :
    Nat → GpImBuf → List Int → GpImBuf × List Int
  | 0, c, st => (c, st)
  | fuel+1, c, st =>
    match st with
    | [] => (c, [])
    | v :: rest =>
      let maxpixel := c.x * c.y - 1
      let rgba := get_pixel c v
      if rgba.1 ≠ 1 ∧ rgba.2.1 ≠ 1 then
        let c2 := set_pixel c v gpFillCol
        gpencil_boundaryfill_loop leak fuel c2
          ((floodPushes c2 leak maxpixel v).foldl (fun acc p => p :: acc) rest)
      else
        gpencil_boundaryfill_loop leak fuel c rest

/-- The seed scan of gpencil_boundaryfill_area (gpencil_fill.c:714-721):
`for (i = 0; i < maxpixel; i++)`, so indices 0 .. maxpixel - 1 are
examined (the last pixel maxpixel = x*y - 1 never is) and the first pixel
whose blue channel equals 1 wins. -/
def seedScanGo (c : GpImBuf) : Nat → Int → Option Int
  | 0, _ => none
  | n+1, i =>
    if (get_pixel c i).2.2.1 = 1 then some i else seedScanGo c n (i + 1)

/-- The full seed scan over indices 0 .. maxpixel - 1. -/
def gpencil_seed_scan (c : GpImBuf) (maxpixel : Int) : Option Int :=
  seedScanGo c maxpixel.toNat 0

/-- gpencil_boundaryfill_area (gpencil_fill.c:701-791): locate the seed by
the blue-pixel scan (the recorded click position is not used), push it if
found (FILL_DEBUG is 0), and run the stack loop.  Returns the final canvas
and the remaining stack (empty when the fuel sufficed). -/
def gpencil_boundaryfill_area (leak : Int) (fuel : Nat) (c : GpImBuf) :
    GpImBuf × List Int :=
  let maxpixel := c.x * c.y - 1
  match gpencil_seed_scan c maxpixel with
  | some i => gpencil_boundaryfill_loop leak fuel c [i]
  | none => gpencil_boundaryfill_loop leak fuel c []

/-- The classification table of gpencil_invert_image: green wins over red,
everything else becomes transparent background. -/
def gpInvertRemap (p : Px) : Px :=
  if p.2.1 = 1 then (1, 0, 0, 1)
  else if p.1 = 1 then (0, 1, 0, 1)
  else (0, 0, 0, 0)

/-- One iteration of the invert loop: read pixel `v`, classify, overwrite. -/
def gpInvertPixel (c : GpImBuf) (v : Int) : GpImBuf :=
  set_pixel c v (gpInvertRemap (get_pixel c v))

/-- The pixel indices visited by `for (v = maxpixel; v != 0; v--)`
(gpencil_invert_image): maxpixel down to 1, never index 0.  (For an empty
canvas maxpixel is negative and the C loop would never stop; the model
visits nothing.) -/
def gpReverseIndices (maxpixel : Int) : List Int :=
  (List.range maxpixel.toNat).map (fun k => maxpixel - ((k : Nat) : Int))

/-- gpencil_invert_image (gpencil_fill.c:828-857). -/
def gpencil_invert_image (c : GpImBuf) : GpImBuf :=
  (gpReverseIndices (c.x * c.y - 1)).foldl gpInvertPixel c

/-- Ascending integers 0..n-1, the column and row loops of the erase
pass. -/
def intRange0 (n : Int) : List Int :=
  (List.range n.toNat).map (fun k => ((k : Nat) : Int))

/-- One pixel of the erase row scan (gpencil_fill.c:884-901): blue turns
the clear flag on, red turns it off; while the flag is on the pixel is
overwritten with the red clear color (the blue pixel itself included). -/
def gpEraseStep (idy : Int) (st : GpImBuf × Bool) (idx : Int) :
    GpImBuf × Bool :=
  let image_idx := st.1.x * idy + idx
  let rgba := get_pixel st.1 image_idx
  let clear := if rgba.2.2.1 = 1 then true
    else if rgba.1 = 1 then false else st.2
  if clear then (set_pixel st.1 image_idx (1, 0, 0, 1), clear)
  else (st.1, clear)

/-- One row of the erase clear scan, columns left to right, flag starting
false. -/
def gpEraseRow (c : GpImBuf) (idy : Int) : GpImBuf :=
  ((intRange0 c.x).foldl (gpEraseStep idy) (c, false)).1

/-- gpencil_erase_processed_area (gpencil_fill.c:860-907): nothing happens
without stroke points; otherwise every stroke point (x, y) is stamped blue
at linear index x*(int)y + (int)x, then every row is scanned left to
right. -/
def gpencil_erase_processed_area (c : GpImBuf) (pts : List (Int × Int)) :
    GpImBuf :=
  if pts = [] then c
  else
    let c1 := pts.foldl
      (fun cc p => set_pixel cc (cc.x * p.2 + p.1) (0, 0, 1, 1)) c
    (intRange0 c1.y).foldl gpEraseRow c1

/-- Reference flag of the erase row scan after processing columns
0..n-1 of row idy of the stamped canvas (the scan reads each pixel before
any write can touch it, so the stamped values drive the flag). -/
def eraseFlagSpec (c1 : GpImBuf) (idy : Int) : Nat → Bool
  | 0 => false
  | n+1 =>
    let rgba := get_pixel c1 (c1.x * idy + (n : Int))
    if rgba.2.2.1 = 1 then true
    else if rgba.1 = 1 then false
    else eraseFlagSpec c1 idy n

/-- C4 scenario canvas, 7 wide and 6 tall: a one-pixel red frame (the
border gpencil_set_borders stamps before the fill), a vertical boundary
wall in column 3 broken by a two-pixel gap at rows 2 and 3 (wall pixels
are the linear indices 10 and 31), and the blue seed at (1,2), index 15.
The interior right of the wall is columns 4-5 of rows 1-4 (linear indices
11, 12, 18, 19, 25, 26, 32, 33). -/
def c4Canvas : GpImBuf :=
  { x := 7, y := 6
    px := fun i =>
      if i < 7 ∨ 35 ≤ i ∨ Int.emod i 7 = 0 ∨ Int.emod i 7 = 6 ∨ i = 10 ∨ i = 31
      then (1, 0, 0, 1)
      else if i = 15 then (0, 0, 1, 1) else (0, 0, 0, 0) }

/-- C8 counterexample canvas, 2 x 2, with a blue (neither red nor green)
pixel at index 0. -/
def c8Canvas : GpImBuf :=
  { x := 2, y := 2
    px := fun i => if i = 0 then (0, 0, 1, 1) else (0, 0, 0, 0) }

/-- C9 counterexample canvas, 3 x 1, all background before the stroke
points are stamped. -/
def c9Canvas : GpImBuf :=
  { x := 3, y := 1, px := fun _ => (0, 0, 0, 0) }

/-- C10 witness canvas, 2 x 2, with no blue pixel anywhere. -/
def c10Canvas : GpImBuf :=
  { x := 2, y := 2
    px := fun i => if i = 3 then (1, 0, 0, 1) else (0, 0, 0, 0) }

-- ===== THEOREMS =====

/-- Reaching the bottom of this marker: theorems about the definitions
above start here. -/
theorem spec2proof_marker : True := trivial

/-- Every reachability witness can be shortened to a minimal one. -/
theorem reach_exists_shortest {adj : Nat → List Nat} {seeds : List Nat} :
    ∀ j w, Reach adj seeds w j → ∃ k, IsShortestHops adj seeds w k ∧ k ≤ j := by
  intro j
  induction j using Nat.strong_induction_on with
  | _ j ih =>
    intro w h
    by_cases hmin : ∀ i, Reach adj seeds w i → j ≤ i
    · exact ⟨j, ⟨h, hmin⟩, le_refl j⟩
    · push_neg at hmin
      obtain ⟨i, hi, hij⟩ := hmin
      obtain ⟨k, hk, hki⟩ := ih i hij w hi
      exact ⟨k, hk, hki.trans hij.le⟩

/-- Nothing is reachable from an empty seed set. -/
theorem reach_seeds_ne_nil {adj : Nat → List Nat} {seeds : List Nat} {w k : Nat}
    (h : Reach adj seeds w k) : seeds ≠ [] := by
  induction h with
  | seed hv => intro hnil; rw [hnil] at hv; exact (List.not_mem_nil _) hv
  | step _ _ ih => exact ih

/-- A zero-hop reachability witness is a seed. -/
theorem reach_zero_mem {adj : Nat → List Nat} {seeds : List Nat} {w : Nat}
    (h : Reach adj seeds w 0) : w ∈ seeds := by
  cases h with
  | seed hv => exact hv

/-- A positive-hop reachability witness factors through a predecessor. -/
theorem reach_succ_pred {adj : Nat → List Nat} {seeds : List Nat} {w k : Nat}
    (h : Reach adj seeds w (k+1)) : ∃ u, Reach adj seeds u k ∧ w ∈ adj u := by
  cases h with
  | step hu hw => exact ⟨_, hu, hw⟩

/-- A minimal positive distance has a predecessor with a minimal distance
at most one less. -/
theorem shortest_succ_pred {adj : Nat → List Nat} {seeds : List Nat} {w k : Nat}
    (h : IsShortestHops adj seeds w (k+1)) :
    ∃ u ku, IsShortestHops adj seeds u ku ∧ ku ≤ k ∧ w ∈ adj u := by
  obtain ⟨u, hu, hw⟩ := reach_succ_pred h.1
  obtain ⟨ku, hku, hle⟩ := reach_exists_shortest k u hu
  exact ⟨u, ku, hku, hle, hw⟩

/-- What one pass of the neighbor loop of the BFS does: it appends a list
of newly discovered vertices to the queue, marks exactly those visited,
gives exactly those the distance `dists v + 1`, leaves every other distance
alone, and ends with every neighbor visited. -/
theorem bfsProcess_fold_spec (v : Nat) (l : List Nat) (s1 : BfsSt)
    (hv : s1.visited v = true) :
    ∃ newly : List Nat,
      (l.foldl (bfsVisitNbr v) s1).queue = s1.queue ++ newly ∧
      (∀ m, (l.foldl (bfsVisitNbr v) s1).visited m = true ↔
        (s1.visited m = true ∨ m ∈ newly)) ∧
      (∀ m, m ∈ newly → m ∈ l ∧ s1.visited m = false ∧
        (l.foldl (bfsVisitNbr v) s1).dists m = s1.dists v + 1) ∧
      (∀ m, m ∉ newly → (l.foldl (bfsVisitNbr v) s1).dists m = s1.dists m) ∧
      (∀ m, m ∈ l → (l.foldl (bfsVisitNbr v) s1).visited m = true) := by
  induction l generalizing s1 with
  | nil =>
    refine ⟨[], by simp, by simp, by simp, by simp, by simp⟩
  | cons n l ih =>
    by_cases hn : s1.visited n = true
    · have hstep : bfsVisitNbr v s1 n = s1 := by simp [bfsVisitNbr, hn]
      obtain ⟨newly, hA, hB, hC, hD, hE⟩ := ih s1 hv
      refine ⟨newly, ?_, ?_, ?_, ?_, ?_⟩ <;>
        simp only [List.foldl_cons, hstep]
      · exact hA
      · exact hB
      · intro m hm
        obtain ⟨h1, h2, h3⟩ := hC m hm
        exact ⟨List.mem_cons_of_mem _ h1, h2, h3⟩
      · exact hD
      · intro m hm
        rcases List.mem_cons.mp hm with h | h
        · subst h; exact (hB m).mpr (Or.inl hn)
        · exact hE m h
    · have hvn : v ≠ n := by intro h; rw [h] at hv; exact hn hv
      have hnf : s1.visited n = false := by
        cases h : s1.visited n
        · rfl
        · exact absurd h hn
      set s2 : BfsSt :=
        { queue := s1.queue ++ [n]
          visited := upd s1.visited n true
          dists := upd s1.dists n (s1.dists v + 1) } with hs2
      have hstep : bfsVisitNbr v s1 n = s2 := by
        simp [bfsVisitNbr, hn, hs2]
      have hv2 : s2.visited v = true := by
        simp [hs2, upd, hvn, hv]
      obtain ⟨newly2, hA, hB, hC, hD, hE⟩ := ih s2 hv2
      have hn2 : n ∉ newly2 := by
        intro hmem
        have := (hC n hmem).2.1
        simp [hs2, upd] at this
      refine ⟨n :: newly2, ?_, ?_, ?_, ?_, ?_⟩ <;>
        simp only [List.foldl_cons, hstep]
      · rw [hA]; simp [hs2]
      · intro m
        rw [hB m]
        by_cases hmn : m = n
        · subst hmn; simp [hs2, upd]
        · simp [hs2, upd, hmn]
      · intro m hm
        rcases List.mem_cons.mp hm with h | h
        · subst h
          refine ⟨List.mem_cons_self _ _, hnf, ?_⟩
          rw [hD _ hn2]
          simp [hs2, upd]
        · obtain ⟨h1, h2, h3⟩ := hC m h
          have hmn : m ≠ n := by
            intro he; subst he
            simp [hs2, upd] at h2
          refine ⟨List.mem_cons_of_mem _ h1, ?_, ?_⟩
          · simpa [hs2, upd, hmn] using h2
          · rw [h3]; simp [hs2, upd, hvn]
      · intro m hm
        have hmn : m ≠ n := fun he => hm (he ▸ List.mem_cons_self _ _)
        have hm2 : m ∉ newly2 := fun he => hm (List.mem_cons_of_mem _ he)
        rw [hD m hm2]
        simp [hs2, upd, hmn]
      · intro m hm
        rcases List.mem_cons.mp hm with h | h
        · subst h
          exact (hB m).mpr (Or.inl (by simp [hs2, upd]))
        · exact hE m h

/-- The visited count never exceeds the vertex count. -/
theorem visCount_le (totvert : Nat) (vis : Nat → Bool) :
    visCount totvert vis ≤ totvert := by
  calc visCount totvert vis ≤ (Finset.range totvert).card :=
        Finset.card_filter_le _ _
    _ = totvert := Finset.card_range totvert

/-- Freshly visiting an in-range vertex bumps the visited count by one. -/
theorem visCount_upd_true (totvert : Nat) (vis : Nat → Bool) (n : Nat)
    (hn : vis n = false) (hlt : n < totvert) :
    visCount totvert (upd vis n true) = visCount totvert vis + 1 := by
  unfold visCount
  have hset : (Finset.range totvert).filter (fun v => upd vis n true v = true)
      = insert n ((Finset.range totvert).filter (fun v => vis v = true)) := by
    ext x
    by_cases hx : x = n
    · subst hx
      simp [upd, Finset.mem_range.mpr hlt]
    · simp [upd, hx, Finset.mem_insert]
  rw [hset, Finset.card_insert_of_not_mem]
  simp [hn]

/-- Processing a popped vertex leaves the termination measure unchanged:
each push adds one queue entry but also visits one fresh in-range vertex. -/
theorem bfsPhi_fold (totvert : Nat) (v : Nat) (l : List Nat) :
    ∀ s1 : BfsSt, (∀ n, n ∈ l → n < totvert) →
      bfsPhi totvert (l.foldl (bfsVisitNbr v) s1) = bfsPhi totvert s1 := by
  induction l with
  | nil => intro s1 _; rfl
  | cons n l ih =>
    intro s1 hb
    rw [List.foldl_cons]
    by_cases hn : s1.visited n = true
    · have hstep : bfsVisitNbr v s1 n = s1 := by simp [bfsVisitNbr, hn]
      rw [hstep]
      exact ih s1 (fun m hm => hb m (List.mem_cons_of_mem _ hm))
    · have hnf : s1.visited n = false := by
        cases h : s1.visited n
        · rfl
        · exact absurd h hn
      set s2 : BfsSt :=
        { queue := s1.queue ++ [n]
          visited := upd s1.visited n true
          dists := upd s1.dists n (s1.dists v + 1) } with hs2
      have hstep : bfsVisitNbr v s1 n = s2 := by
        simp [bfsVisitNbr, hn, hs2]
      rw [hstep, ih s2 (fun m hm => hb m (List.mem_cons_of_mem _ hm))]
      have hlt : n < totvert := hb n (List.mem_cons_self _ _)
      have hcnt : visCount totvert s2.visited = visCount totvert s1.visited + 1 :=
        visCount_upd_true totvert s1.visited n hnf hlt
      have hle : visCount totvert s1.visited + 1 ≤ totvert := by
        rw [← hcnt]; exact visCount_le totvert s2.visited
      unfold bfsPhi
      rw [hcnt]
      have hq : s2.queue.length = s1.queue.length + 1 := by simp [hs2]
      rw [hq]
      omega

/-- C2: the face-set erase relaxation pass is claimed to terminate on every
input, stopping when no face carries the target id or when a full pass
makes no progress.  The code has no progress check: on this two-face island
(faces 1 and 2 share vertex 10, both carry the id 5 being deleted, and have
no differently-labelled neighbor) the outer loop swaps the same queue back
and forth forever, so no amount of fuel makes it terminate. -/
theorem sculpt_expand_delete_face_set_id_diverges :
    ∀ fuel : Nat,
      sculpt_expand_delete_face_set_id c2FacesVerts c2VertFaces 3 5 c2FaceSets fuel
        = none := by
  have key : ∀ fuel : Nat,
      deleteOuter c2FacesVerts c2VertFaces 5 fuel [2, 1] [] c2FaceSets = none ∧
      deleteOuter c2FacesVerts c2VertFaces 5 fuel [1, 2] [] c2FaceSets = none := by
    intro fuel
    induction fuel with
    | zero => exact ⟨rfl, rfl⟩
    | succ n ih =>
      constructor
      · show deleteOuter c2FacesVerts c2VertFaces 5 n [1, 2] [] c2FaceSets = none
        exact ih.2
      · show deleteOuter c2FacesVerts c2VertFaces 5 n [2, 1] [] c2FaceSets = none
        exact ih.1
  intro fuel
  show deleteOuter c2FacesVerts c2VertFaces 5 fuel [2, 1] [] c2FaceSets = none
  exact (key fuel).1

/-- C1: cancelling the expand session is claimed to restore the initial
mask snapshot bit-for-bit.  sculpt_expand_cancel only frees the cache, so
after a single pointer move that enabled vertex 0 (writing mask 1), the
cancelled session leaves the mask at 1 while the snapshot stored at session
start was 0. -/
theorem sculpt_expand_cancel_keeps_last_update :
    runExpandSessionCancelled 1 c1Cache c1Mask0 0
        [ExpandEvent.pointerMove (some 0)] 0 = 1 ∧
      c1Mask0 0 = 0 := by
  constructor
  · rfl
  · rfl

/-- C5: the normal-similarity falloff values are claimed to lie in [0, 1]
after the reset to FLT_MAX and the two smoothing rounds.  On a two-vertex
mesh where each vertex is the other's single neighbor, whatever the flood
fill produced, both final values are exactly FLT_MAX, which exceeds 1. -/
theorem sculpt_expand_normal_falloff_not_in_unit_interval :
    ∀ dists0 : Nat → ℚ,
      sculpt_expand_normal_falloff_create_post 2 c5Adj dists0 0 = FLT_MAX ∧
      sculpt_expand_normal_falloff_create_post 2 c5Adj dists0 1 = FLT_MAX ∧
      ¬ sculpt_expand_normal_falloff_create_post 2 c5Adj dists0 0 ≤ 1 := by
  intro dists0
  have h0 : sculpt_expand_normal_falloff_create_post 2 c5Adj dists0 0 = FLT_MAX := by
    simp [sculpt_expand_normal_falloff_create_post, c5Adj, upd, List.range_succ]
  have h1 : sculpt_expand_normal_falloff_create_post 2 c5Adj dists0 1 = FLT_MAX := by
    simp [sculpt_expand_normal_falloff_create_post, c5Adj, upd, List.range_succ]
  refine ⟨h0, h1, ?_⟩
  rw [h0]
  norm_num [FLT_MAX]

/-- The invariant holds for the seeded initial state. -/
theorem bfsInv_init (adj : Nat → List Nat) (seeds : List Nat) :
    BfsInv adj seeds (bfsInit seeds) := by
  constructor
  · intro x hx
    simp [bfsInit] at hx ⊢
    exact hx
  · intro u hu
    have hmem : u ∈ seeds := by simpa [bfsInit] using hu
    exact ⟨0, by simp [bfsInit], Reach.seed hmem, fun j _ => Nat.zero_le j⟩
  · intro u hu hq
    have hmem : u ∈ seeds := by simpa [bfsInit] using hu
    exact absurd hmem (by simpa [bfsInit] using hq)
  · exact ⟨0, seeds, [], by simp [bfsInit], fun x _ => by simp [bfsInit],
      by simp, by simp⟩
  · intro w k hk hdisj
    rcases hdisj with hempty | ⟨x, hx, hle⟩
    · exact absurd (by simpa [bfsInit] using hempty) (reach_seeds_ne_nil hk.1)
    · have hk0 : (k : ℚ) ≤ 0 := by
        simpa [bfsInit] using hle
      have hk0n : k = 0 := by exact_mod_cast le_antisymm hk0 (by positivity)
      subst hk0n
      have hmem := reach_zero_mem hk.1
      simp [bfsInit, hmem]

/-- One pop of the BFS loop preserves the invariant. -/
theorem bfsInv_step (adj : Nat → List Nat) (seeds : List Nat) (s : BfsSt)
    (v : Nat) (rest : List Nat) (hq : s.queue = v :: rest)
    (hinv : BfsInv adj seeds s) :
    BfsInv adj seeds (bfsProcess adj v { s with queue := rest }) := by
  have hv : s.visited v = true := hinv.qvis v (by rw [hq]; exact List.mem_cons_self _ _)
  obtain ⟨D, hdv, hshortv⟩ := hinv.vcorrect v hv
  simp only [bfsProcess]
  obtain ⟨newly, hA, hB, hC, hD, hE⟩ :=
    bfsProcess_fold_spec v (adj v) { s with queue := rest } hv
  set F := (adj v).foldl (bfsVisitNbr v) { s with queue := rest } with hF
  dsimp only at hA hB hC hD hE
  -- old layer structure
  obtain ⟨D0, q1, q2, hsplit, h1, h2, hcl⟩ := hinv.layer
  rw [hq] at hsplit
  have hq1ne : q1 ≠ [] := by
    intro hnil
    rw [hnil, hcl hnil] at hsplit
    exact List.cons_ne_nil v rest hsplit
  obtain ⟨q1t, rfl⟩ : ∃ q1t, q1 = v :: q1t := by
    cases q1 with
    | nil => exact absurd rfl hq1ne
    | cons a t =>
      have h2 : v :: rest = a :: (t ++ q2) := by rw [hsplit, List.cons_append]
      simp only [List.cons.injEq] at h2
      exact ⟨t, by rw [h2.1]⟩
  have hrest : rest = q1t ++ q2 := by
    have h2 : v :: rest = v :: (q1t ++ q2) := by rw [hsplit, List.cons_append]
    simpa using h2
  have hDD0 : D = D0 := by
    have h1v : s.dists v = (D0 : ℚ) := h1 v (List.mem_cons_self _ _)
    have hc : (D : ℚ) = (D0 : ℚ) := by rw [← hdv, h1v]
    exact_mod_cast hc
  subst hDD0
  -- basic facts about newly and preserved data
  have hold_not_new : ∀ m, s.visited m = true → m ∉ newly := by
    intro m hm hmem
    have hcon := (hC m hmem).2.1
    rw [hm] at hcon
    cases hcon
  have hold_dists : ∀ m, s.visited m = true → F.dists m = s.dists m := by
    intro m hm
    exact hD m (hold_not_new m hm)
  have hqueue_vis : ∀ x, x ∈ s.queue → s.visited x = true := hinv.qvis
  have hnew_dists : ∀ m, m ∈ newly → F.dists m = ((D : ℚ) + 1) := by
    intro m hm
    rw [(hC m hm).2.2, hdv]
  have hcast : ((D + 1 : Nat) : ℚ) = (D : ℚ) + 1 := by push_cast; ring
  -- any shortest distance of a freshly discovered vertex exceeds D
  have hnew_shortest_lb : ∀ u, u ∈ newly →
      ∀ k0, IsShortestHops adj seeds u k0 → D + 1 ≤ k0 := by
    intro u hnew k0 hk0
    by_contra hlt
    push_neg at hlt
    have hvis : s.visited u = true := by
      apply hinv.complete u k0 hk0
      refine Or.inr ⟨v, by rw [hq]; rfl, ?_⟩
      rw [hdv]
      exact_mod_cast Nat.lt_succ_iff.mp hlt
    rw [(hC u hnew).2.1] at hvis
    cases hvis
  -- the five invariant fields for F
  have hqvisF : ∀ x, x ∈ F.queue → F.visited x = true := by
    intro x hx
    rw [hA] at hx
    rcases List.mem_append.mp hx with h | h
    · exact (hB x).mpr (Or.inl (hqueue_vis x (by rw [hq]; exact List.mem_cons_of_mem _ h)))
    · exact (hB x).mpr (Or.inr h)
  have hvcorF : ∀ u, F.visited u = true →
      ∃ k : Nat, F.dists u = (k : ℚ) ∧ IsShortestHops adj seeds u k := by
    intro u hu
    rcases (hB u).mp hu with hold | hnew
    · obtain ⟨k, hk1, hk2⟩ := hinv.vcorrect u hold
      exact ⟨k, by rw [hold_dists u hold]; exact hk1, hk2⟩
    · refine ⟨D + 1, by rw [hnew_dists u hnew, hcast], ?_, ?_⟩
      · exact Reach.step hshortv.1 (hC u hnew).1
      · intro j hj
        obtain ⟨k0, hk0, hk0j⟩ := reach_exists_shortest j u hj
        have := hnew_shortest_lb u hnew k0 hk0
        omega
  have hclosedF : ∀ u, F.visited u = true → u ∉ F.queue →
      ∀ n, n ∈ adj u → F.visited n = true := by
    intro u hu hnq n hn
    by_cases huv : u = v
    · subst huv
      exact hE n hn
    · rcases (hB u).mp hu with hold | hnew
      · have hnotq : u ∉ s.queue := by
          rw [hq]
          intro hmem
          rcases List.mem_cons.mp hmem with h | h
          · exact huv h
          · exact hnq (by rw [hA]; exact List.mem_append.mpr (Or.inl h))
        exact (hB n).mpr (Or.inl (hinv.closed u hold hnotq n hn))
      · exact absurd (by rw [hA]; exact List.mem_append.mpr (Or.inr hnew) :
          u ∈ F.queue) hnq
  have hq2d : ∀ x, x ∈ q2 → F.dists x = ((D : ℚ) + 1) := by
    intro x hx
    have hvx : s.visited x = true :=
      hqueue_vis x (by
        rw [hq, hrest]
        exact List.mem_cons_of_mem _ (List.mem_append.mpr (Or.inr hx)))
    rw [hold_dists x hvx]
    exact h2 x hx
  have hq1d : ∀ x, x ∈ q1t → F.dists x = (D : ℚ) := by
    intro x hx
    have hvx : s.visited x = true :=
      hqueue_vis x (by
        rw [hq, hrest]
        exact List.mem_cons_of_mem _ (List.mem_append.mpr (Or.inl hx)))
    rw [hold_dists x hvx]
    exact h1 x (List.mem_cons_of_mem _ hx)
  have hlayerF : LayerInv F := by
    cases hq1t : q1t with
    | nil =>
      refine ⟨D + 1, q2 ++ newly, [], ?_, ?_, ?_, fun _ => rfl⟩
      · rw [hA, hrest, hq1t]
        simp
      · intro x hx
        rw [hcast]
        rcases List.mem_append.mp hx with h | h
        · exact hq2d x h
        · exact hnew_dists x h
      · intro x hx
        exact absurd hx (List.not_mem_nil x)
    | cons b q1tt =>
      refine ⟨D, q1t, q2 ++ newly, ?_, ?_, ?_, ?_⟩
      · rw [hA, hrest]
        simp
      · intro x hx
        exact hq1d x hx
      · intro x hx
        rcases List.mem_append.mp hx with h | h
        · exact hq2d x h
        · exact hnew_dists x h
      · intro h
        rw [hq1t] at h
        exact absurd h (List.cons_ne_nil _ _)
  have hcompLe : ∀ w k, IsShortestHops adj seeds w k → k ≤ D →
      F.visited w = true := by
    intro w k hk hkD
    refine (hB w).mpr (Or.inl ?_)
    apply hinv.complete w k hk
    refine Or.inr ⟨v, by rw [hq]; rfl, ?_⟩
    rw [hdv]
    exact_mod_cast hkD
  have hcompF : ∀ w k, IsShortestHops adj seeds w k →
      (F.queue = [] ∨ ∃ x, F.queue.head? = some x ∧ (k : ℚ) ≤ F.dists x) →
      F.visited w = true := by
    intro w k hk hdisj
    have hcompD1 : (∀ z, z ∈ F.queue → F.dists z = ((D : ℚ) + 1)) →
        ∀ w k, IsShortestHops adj seeds w k → k ≤ D + 1 → F.visited w = true := by
      intro hallD1 w k hk hkD1
      rcases Nat.lt_or_ge k (D + 1) with hlt | hge
      · exact hcompLe w k hk (by omega)
      · have hkeq : k = D + 1 := by omega
        subst hkeq
        obtain ⟨u, ku, hku, hkule, hwu⟩ := shortest_succ_pred hk
        have hvu : F.visited u = true := hcompLe u ku hku hkule
        have hvuo : s.visited u = true := by
          rcases (hB u).mp hvu with h | h
          · exact h
          · exact absurd (hnew_shortest_lb u h ku hku) (by omega)
        have hunq : u ∉ F.queue := by
          intro hmem
          have hz := hallD1 u hmem
          rw [hold_dists u hvuo] at hz
          obtain ⟨ku2, hku2, hku2s⟩ := hinv.vcorrect u hvuo
          rw [hku2] at hz
          have hzz : ku2 = D + 1 := by
            have : (ku2 : ℚ) = ((D + 1 : Nat) : ℚ) := by rw [hz, hcast]
            exact_mod_cast this
          have hkuku2 : ku2 ≤ ku := hku2s.2 ku hku.1
          omega
        exact hclosedF u hvu hunq w hwu
    rcases hdisj with hempty | ⟨x, hx, hle⟩
    · -- queue exhausted: every reachable vertex is visited
      have hrn : rest = [] ∧ newly = [] := by
        rw [hA] at hempty
        exact List.append_eq_nil.mp hempty
      induction k using Nat.strong_induction_on generalizing w with
      | _ k ihk =>
        rcases Nat.lt_or_ge k (D + 1) with hlt | hge
        · exact hcompLe w k hk (by omega)
        · obtain ⟨k0, hkeq⟩ : ∃ k0, k = k0 + 1 := ⟨k - 1, by omega⟩
          subst hkeq
          obtain ⟨u, ku, hku, hkule, hwu⟩ := shortest_succ_pred hk
          have hvu : F.visited u = true := ihk ku (by omega) u hku
          have hunq : u ∉ F.queue := by
            rw [hA, hrn.1, hrn.2]
            exact List.not_mem_nil u
          exact hclosedF u hvu hunq w hwu
    · -- nonempty queue: the head distance bounds k
      cases hq1t : q1t with
      | cons b q1tt =>
        have hhead : F.queue.head? = some b := by
          rw [hA, hrest, hq1t]
          simp
        rw [hhead] at hx
        simp only [Option.some.injEq] at hx
        have hdb : F.dists x = (D : ℚ) := by
          rw [← hx]
          exact hq1d b (by rw [hq1t]; exact List.mem_cons_self _ _)
        rw [hdb] at hle
        exact hcompLe w k hk (by exact_mod_cast hle)
      | nil =>
        have hallD1 : ∀ z, z ∈ F.queue → F.dists z = ((D : ℚ) + 1) := by
          intro z hz
          rw [hA, hrest, hq1t] at hz
          simp only [List.nil_append] at hz
          rcases List.mem_append.mp hz with h | h
          · exact hq2d z h
          · exact hnew_dists z h
        have hxm : x ∈ F.queue := by
          cases hFq : F.queue with
          | nil => rw [hFq] at hx; cases hx
          | cons c t =>
            rw [hFq] at hx
            simp only [List.head?_cons, Option.some.injEq] at hx
            rw [← hx]
            exact List.mem_cons_self _ _
        have hdx := hallD1 x hxm
        rw [hdx] at hle
        have hkle : k ≤ D + 1 := by
          have : (k : ℚ) ≤ ((D + 1 : Nat) : ℚ) := by rw [hcast]; exact hle
          exact_mod_cast this
        exact hcompD1 hallD1 w k hk hkle
  exact ⟨hqvisF, hvcorF, hclosedF, hlayerF, hcompF⟩

/-- Unfolding of one step of the BFS loop. -/
theorem bfsRun_succ (adj : Nat → List Nat) (n : Nat) (s : BfsSt) :
    bfsRun adj (n+1) s =
      match s.queue with
      | [] => s
      | v :: rest => bfsRun adj n (bfsProcess adj v { s with queue := rest }) := rfl

/-- Unfolding of one step of the flood-fill loop. -/
theorem ffRun_succ (adjD : Nat → List (Nat × Bool)) (n : Nat) (s : BfsSt) :
    ffRun adjD (n+1) s =
      match s.queue with
      | [] => s
      | v :: rest => ffRun adjD n (ffProcess adjD v { s with queue := rest }) := rfl

/-- With enough fuel the BFS reaches an empty queue, preserving the
invariant throughout. -/
theorem bfsRun_inv_and_empty (totvert : Nat) (adj : Nat → List Nat)
    (seeds : List Nat) (hadjB : ∀ u, ∀ n, n ∈ adj u → n < totvert) :
    ∀ fuel s, BfsInv adj seeds s → bfsPhi totvert s ≤ fuel →
      BfsInv adj seeds (bfsRun adj fuel s) ∧ (bfsRun adj fuel s).queue = [] := by
  intro fuel
  induction fuel with
  | zero =>
    intro s hinv hphi
    have hq : s.queue = [] := by
      have hlen : s.queue.length = 0 := by
        unfold bfsPhi at hphi
        omega
      exact List.length_eq_zero.mp hlen
    exact ⟨hinv, hq⟩
  | succ n ih =>
    intro s hinv hphi
    cases hq : s.queue with
    | nil =>
      rw [bfsRun_succ, hq]
      exact ⟨hinv, hq⟩
    | cons v rest =>
      have hstep := bfsInv_step adj seeds s v rest hq hinv
      have hphi2 : bfsPhi totvert (bfsProcess adj v { s with queue := rest }) ≤ n := by
        have heq : bfsPhi totvert (bfsProcess adj v { s with queue := rest })
            = bfsPhi totvert ({ s with queue := rest } : BfsSt) := by
          simp only [bfsProcess]
          exact bfsPhi_fold totvert v (adj v) _ (fun m hm => hadjB v m hm)
        rw [heq]
        unfold bfsPhi at hphi ⊢
        rw [hq] at hphi
        simp only [List.length_cons] at hphi
        dsimp only
        omega
      rw [bfsRun_succ, hq]
      exact ih _ hstep hphi2

/-- The initial state measure is bounded by the fuel the create function
uses. -/
theorem bfsPhi_init_le (totvert : Nat) (seeds : List Nat) :
    bfsPhi totvert (bfsInit seeds) ≤ seeds.length + totvert := by
  unfold bfsPhi bfsInit
  simp only
  omega

/-- Effect of the final FLT_MAX pass on one entry. -/
theorem foldl_fltmax_spec (vis : Nat → Bool) (l : List Nat) (d0 : Nat → ℚ)
    (j : Nat) :
    (l.foldl (fun d i => if vis i then d else upd d i FLT_MAX) d0) j
      = if j ∈ l ∧ vis j = false then FLT_MAX else d0 j := by
  induction l generalizing d0 with
  | nil => simp
  | cons i l ih =>
    rw [List.foldl_cons, ih]
    by_cases hji : j = i
    · subst hji
      cases hv : vis j with
      | true => simp [hv]
      | false =>
        by_cases hmem : j ∈ l
        · simp [hv, upd, hmem]
        · simp [hv, upd, hmem]
    · cases hv : vis j with
      | true => simp [hv, upd, hji, ite_apply]
      | false =>
        by_cases hmem : j ∈ l
        · simp [hv, upd, hmem, hji, ite_apply]
        · simp [hv, upd, hmem, hji, ite_apply]

/-- C6: in the boundary-topology falloff build, an empty boundary seed set
(no boundary vertex found across all symmetry origins) leaves every value
at the calloc zero; otherwise every vertex reachable from the union of the
boundary seed sets gets exactly its shortest hop count from that set, and
every unreachable vertex gets FLT_MAX. -/
theorem sculpt_expand_boundary_topology_falloff_spec (totvert : Nat)
    (adj : Nat → List Nat) (seeds : List Nat)
    (hadjB : ∀ u, ∀ n, n ∈ adj u → n < totvert) :
    (seeds = [] → ∀ i,
      sculpt_expand_boundary_topology_falloff_create totvert adj seeds i = 0) ∧
    (seeds ≠ [] → ∀ i, i < totvert →
      (∀ k, IsShortestHops adj seeds i k →
        sculpt_expand_boundary_topology_falloff_create totvert adj seeds i = (k : ℚ)) ∧
      ((¬ ∃ k, Reach adj seeds i k) →
        sculpt_expand_boundary_topology_falloff_create totvert adj seeds i = FLT_MAX)) := by
  constructor
  · intro hnil i
    subst hnil
    rfl
  · intro hne i hi
    obtain ⟨a, seeds2, rfl⟩ : ∃ a s2, seeds = a :: s2 := by
      cases seeds with
      | nil => exact absurd rfl hne
      | cons a t => exact ⟨a, t, rfl⟩
    obtain ⟨hinvF, hqF⟩ := bfsRun_inv_and_empty totvert adj (a :: seeds2) hadjB
      ((a :: seeds2).length + totvert) (bfsInit (a :: seeds2))
      (bfsInv_init adj (a :: seeds2)) (bfsPhi_init_le totvert (a :: seeds2))
    set sF := bfsRun adj ((a :: seeds2).length + totvert) (bfsInit (a :: seeds2))
      with hsF
    have hcreate :
        sculpt_expand_boundary_topology_falloff_create totvert adj (a :: seeds2) i
        = if i ∈ List.range totvert ∧ sF.visited i = false then FLT_MAX
          else sF.dists i := by
      show ((List.range totvert).foldl
        (fun d i => if sF.visited i then d else upd d i FLT_MAX) sF.dists) i = _
      exact foldl_fltmax_spec sF.visited (List.range totvert) sF.dists i
    constructor
    · intro k hk
      have hvis : sF.visited i = true := hinvF.complete i k hk (Or.inl hqF)
      rw [hcreate, if_neg (by simp [hvis])]
      obtain ⟨k0, hd0, hs0⟩ := hinvF.vcorrect i hvis
      have hk0k : k0 = k := le_antisymm (hs0.2 k hk.1) (hk.2 k0 hs0.1)
      rw [hd0, hk0k]
    · intro hnr
      have hvis : sF.visited i = false := by
        cases hv : sF.visited i with
        | false => rfl
        | true =>
          obtain ⟨k0, _, hs0⟩ := hinvF.vcorrect i hv
          exact absurd ⟨k0, hs0.1⟩ hnr
      rw [hcreate, if_pos ⟨List.mem_range.mpr hi, hvis⟩]

/-- Witness for the C6 theorem on a concrete path graph 0 - 1 - 2 with the
isolated vertex 3, seeded at the boundary vertex 0. -/
theorem sculpt_expand_boundary_topology_falloff_spec_witness :
    sculpt_expand_boundary_topology_falloff_create 4 c6WitnessAdj [0] 2
        = ((2 : Nat) : ℚ) ∧
      sculpt_expand_boundary_topology_falloff_create 4 c6WitnessAdj [0] 3
        = FLT_MAX := by
  have hadjB : ∀ u, ∀ n, n ∈ c6WitnessAdj u → n < 4 := by
    intro u n hn
    unfold c6WitnessAdj at hn
    split_ifs at hn <;> simp_all
    omega
  have h := (sculpt_expand_boundary_topology_falloff_spec 4 c6WitnessAdj [0]
    hadjB).2 (by simp)
  have r0 : Reach c6WitnessAdj [0] 0 0 := Reach.seed (by simp)
  have r1 : Reach c6WitnessAdj [0] 1 1 := Reach.step r0 (by simp [c6WitnessAdj])
  have r2 : Reach c6WitnessAdj [0] 2 2 := Reach.step r1 (by simp [c6WitnessAdj])
  constructor
  · apply (h 2 (by omega)).1 2
    constructor
    · exact r2
    · intro j hj
      by_contra hlt
      push_neg at hlt
      interval_cases j
      · exact absurd (reach_zero_mem hj) (by simp)
      · obtain ⟨u, hu, hmem⟩ := reach_succ_pred hj
        have hu0 := reach_zero_mem hu
        simp at hu0
        subst hu0
        simp [c6WitnessAdj] at hmem
  · apply (h 3 (by omega)).2
    rintro ⟨k, hk⟩
    cases hk with
    | seed hmem => simp at hmem
    | step hu hmem =>
      unfold c6WitnessAdj at hmem
      split_ifs at hmem <;> simp_all

/-- A fold over non-duplicate tagged neighbors coincides with the plain
BFS fold over the projected neighbors. -/
theorem ffFold_eq_bfsFold (v : Nat) :
    ∀ (l : List (Nat × Bool)), (∀ p, p ∈ l → p.2 = false) → ∀ s : BfsSt,
      l.foldl (ffVisitNbr v) s = (l.map Prod.fst).foldl (bfsVisitNbr v) s := by
  intro l
  induction l with
  | nil => intro _ s; rfl
  | cons p l ih =>
    intro hnd s
    rw [List.map_cons, List.foldl_cons, List.foldl_cons]
    have hp : p.2 = false := hnd p (List.mem_cons_self _ _)
    have hvisit : ffVisitNbr v s p = bfsVisitNbr v s p.1 := by
      obtain ⟨n, b⟩ := p
      simp only at hp
      subst hp
      simp [ffVisitNbr, bfsVisitNbr]
    rw [hvisit]
    exact ih (fun q hq => hnd q (List.mem_cons_of_mem _ hq)) _

/-- On a graph without duplicate edges the topology flood fill runs the
plain BFS. -/
theorem ffRun_eq_bfsRun (adjD : Nat → List (Nat × Bool))
    (hnd : ∀ u, ∀ p, p ∈ adjD u → p.2 = false) :
    ∀ fuel s, ffRun adjD fuel s = bfsRun (projAdj adjD) fuel s := by
  intro fuel
  induction fuel with
  | zero => intro s; rfl
  | succ n ih =>
    intro s
    rw [ffRun_succ, bfsRun_succ]
    cases hq : s.queue with
    | nil => rfl
    | cons v rest =>
      have hproc : ffProcess adjD v { s with queue := rest }
          = bfsProcess (projAdj adjD) v { s with queue := rest } := by
        simp only [ffProcess, bfsProcess, projAdj]
        exact ffFold_eq_bfsFold v (adjD v) (fun p hp => hnd v p hp) _
      dsimp only
      rw [hproc]
      exact ih _

/-- C3 (amended): on an adjacency graph without duplicate edges, the
topology falloff assigns every vertex reachable from the origin set
exactly its shortest unweighted hop count. -/
theorem sculpt_expand_topology_falloff_nodup_spec (totvert : Nat)
    (adjD : Nat → List (Nat × Bool)) (seeds : List Nat)
    (hadjB : ∀ u, ∀ p, p ∈ adjD u → p.1 < totvert)
    (hnd : ∀ u, ∀ p, p ∈ adjD u → p.2 = false)
    (i k : Nat) (hk : IsShortestHops (projAdj adjD) seeds i k) :
    sculpt_expand_topology_falloff_create totvert adjD seeds i = (k : ℚ) := by
  have hadjB2 : ∀ u, ∀ n, n ∈ projAdj adjD u → n < totvert := by
    intro u n hn
    simp only [projAdj, List.mem_map] at hn
    obtain ⟨p, hp, rfl⟩ := hn
    exact hadjB u p hp
  obtain ⟨hinvF, hqF⟩ := bfsRun_inv_and_empty totvert (projAdj adjD) seeds hadjB2
    (seeds.length + totvert) (bfsInit seeds) (bfsInv_init _ seeds)
    (bfsPhi_init_le totvert seeds)
  have heq : sculpt_expand_topology_falloff_create totvert adjD seeds
      = (bfsRun (projAdj adjD) (seeds.length + totvert) (bfsInit seeds)).dists := by
    unfold sculpt_expand_topology_falloff_create
    rw [ffRun_eq_bfsRun adjD hnd]
  rw [heq]
  have hvis := hinvF.complete i k hk (Or.inl hqF)
  obtain ⟨k0, hd0, hs0⟩ := hinvF.vcorrect i hvis
  have hk0k : k0 = k := le_antisymm (hs0.2 k hk.1) (hk.2 k0 hs0.1)
  rw [hd0, hk0k]

/-- Zero-cost duplicate-aware reachability in the C3 counterexample graph
only reaches the seed vertex 0. -/
theorem c3_reachD_zero : ∀ w k, ReachD c3Adj [0] w k → k = 0 → w = 0 := by
  intro w k h
  induction h with
  | seed hv => intro _; simpa using hv
  | step _ _ _ => intro h0; exact absurd h0 (Nat.succ_ne_zero _)
  | dup hu hmem ih =>
    intro h0
    have hu0 := ih h0
    subst hu0
    simp [c3Adj] at hmem

/-- C3 counterexample: in the diamond graph where the edge 2 - 3 is a
duplicate, the flood fill reaches vertex 3 through vertex 1 first and
stores 2, while the shortest hop count in the claimed metric (duplicate
edges copy the distance unchanged) is 1. -/
theorem sculpt_expand_topology_falloff_duplicate_counterexample :
    sculpt_expand_topology_falloff_create 4 c3Adj [0] 3 = 2 ∧
    ReachD c3Adj [0] 3 1 ∧ (∀ j, ReachD c3Adj [0] 3 j → 1 ≤ j) ∧
    ((2 : ℚ) ≠ (1 : ℚ)) := by
  have hval : sculpt_expand_topology_falloff_create 4 c3Adj [0] 3
      = (0 : ℚ) + 1 + 1 := rfl
  refine ⟨by rw [hval]; norm_num, ?_, ?_, by norm_num⟩
  · have r0 : ReachD c3Adj [0] 0 0 := ReachD.seed (by simp)
    have r2 : ReachD c3Adj [0] 2 1 := ReachD.step r0 (by simp [c3Adj])
    exact ReachD.dup r2 (by simp [c3Adj])
  · intro j hj
    by_contra hlt
    push_neg at hlt
    have hj0 : j = 0 := by omega
    subst hj0
    have h30 := c3_reachD_zero 3 0 hj rfl
    exact absurd h30 (by omega)

/-- Witness for the amended C3 theorem on a concrete two-vertex path. -/
theorem sculpt_expand_topology_falloff_nodup_spec_witness :
    sculpt_expand_topology_falloff_create 2 c3WitnessAdj [0] 1 = ((1 : Nat) : ℚ) := by
  apply sculpt_expand_topology_falloff_nodup_spec 2 c3WitnessAdj [0]
  · intro u p hp
    unfold c3WitnessAdj at hp
    split_ifs at hp <;> simp_all
  · intro u p hp
    unfold c3WitnessAdj at hp
    split_ifs at hp <;> simp_all
  · constructor
    · have r0 : Reach (projAdj c3WitnessAdj) [0] 0 0 := Reach.seed (by simp)
      exact Reach.step r0 (by simp [projAdj, c3WitnessAdj])
    · intro j hj
      by_contra hlt
      push_neg at hlt
      have hj0 : j = 0 := by omega
      subst hj0
      have hm := reach_zero_mem hj
      simp at hm

/-- The left fold of min either returns its initial value or a list
element. -/
theorem foldl_min_mem (l : List ℝ) :
    ∀ a : ℝ, l.foldl min a = a ∨ (l.foldl min a) ∈ l := by
  induction l with
  | nil => intro a; exact Or.inl rfl
  | cons x l ih =>
    intro a
    rw [List.foldl_cons]
    rcases ih (min a x) with h | h
    · rw [h]
      rcases le_total a x with hax | hxa
      · exact Or.inl (min_eq_left hax)
      · exact Or.inr (by rw [min_eq_right hxa]; exact List.mem_cons_self _ _)
    · exact Or.inr (List.mem_cons_of_mem _ h)

/-- The left fold of min is a lower bound of the initial value and of all
list elements. -/
theorem foldl_min_le (l : List ℝ) :
    ∀ a : ℝ, (l.foldl min a ≤ a) ∧ ∀ x, x ∈ l → l.foldl min a ≤ x := by
  induction l with
  | nil => simp
  | cons x l ih =>
    intro a
    rw [List.foldl_cons]
    obtain ⟨h1, h2⟩ := ih (min a x)
    refine ⟨h1.trans (min_le_left a x), ?_⟩
    intro y hy
    rcases List.mem_cons.mp hy with hxy | hy
    · rw [hxy]
      exact h1.trans (min_le_right a x)
    · exact h2 y hy

/-- Folding min from an initial value that dominates a nonempty list
yields the least list element. -/
theorem foldl_min_isLeast (l : List ℝ) (a : ℝ) (hne : l ≠ [])
    (ha : ∀ x, x ∈ l → x ≤ a) :
    IsLeast {r : ℝ | r ∈ l} (l.foldl min a) := by
  constructor
  · rcases foldl_min_mem l a with h | h
    · obtain ⟨y, l2, rfl⟩ : ∃ y l2, l = y :: l2 := by
        cases l with
        | nil => exact absurd rfl hne
        | cons y l2 => exact ⟨y, l2, rfl⟩
      have h1 := (foldl_min_le (y :: l2) a).2 y (List.mem_cons_self _ _)
      rw [h] at h1
      have h2 := ha y (List.mem_cons_self _ _)
      have hay : a = y := le_antisymm h1 h2
      rw [h, hay]
      exact List.mem_cons_self _ _
    · exact h
  · intro x hx
    exact (foldl_min_le l a).2 x hx

/-- Pointwise value of the spherical iteration fold: the running minimum
over the distances to the contributing origins gathered so far. -/
theorem spherical_fold_gen (m : SphericalInput) (vertex i : Nat)
    (hi : i < m.totvert) :
    ∀ (its : List Nat) (d : Nat → ℝ),
      (its.foldl (sphericalStep m vertex) d) i
        = ((its.filterMap
            (fun it => if m.symmValid it then sphericalOriginOf m vertex it
              else none)).map
            (fun v => len_v3v3 (m.co v) (m.co i))).foldl min (d i) := by
  intro its
  induction its with
  | nil => intro d; rfl
  | cons it its ih =>
    intro d
    rw [List.foldl_cons]
    by_cases hval : m.symmValid it = true
    · cases horig : sphericalOriginOf m vertex it with
      | none =>
        have hf : (fun it => if m.symmValid it then sphericalOriginOf m vertex it
            else none) it = none := by
          simp [hval, horig]
        rw [@List.filterMap_cons_none Nat Nat (fun it => if m.symmValid it then sphericalOriginOf m vertex it else none) it its hf]
        have hstep : sphericalStep m vertex d it = d := by
          unfold sphericalStep
          rw [if_pos hval, horig]
        rw [hstep]
        exact ih d
      | some v =>
        have hf : (fun it => if m.symmValid it then sphericalOriginOf m vertex it
            else none) it = some v := by
          simp [hval, horig]
        rw [@List.filterMap_cons_some Nat Nat (fun it => if m.symmValid it then sphericalOriginOf m vertex it else none) it its v hf]
        have hstep : sphericalStep m vertex d it
            = fun j => if j < m.totvert then min (d j) (len_v3v3 (m.co v) (m.co j))
              else d j := by
          unfold sphericalStep
          rw [if_pos hval, horig]
        rw [hstep, List.map_cons, List.foldl_cons]
        rw [ih (fun j => if j < m.totvert then min (d j) (len_v3v3 (m.co v) (m.co j))
          else d j)]
        congr 1
        simp [hi]
    · have hf : (fun it => if m.symmValid it then sphericalOriginOf m vertex it
          else none) it = none := by
        simp [hval]
      rw [@List.filterMap_cons_none Nat Nat (fun it => if m.symmValid it then sphericalOriginOf m vertex it else none) it its hf]
      have hstep : sphericalStep m vertex d it = d := by
        unfold sphericalStep
        rw [if_neg hval]
      rw [hstep]
      exact ih d

/-- C7: the spherical falloff assigns every in-range vertex the minimum,
over the origin vertex and every valid symmetry iteration whose flipped
origin resolves to an actual vertex, of the Euclidean distance from the
vertex position to that origin position; failed resolutions contribute
nothing.  (The distances are assumed to fit under FLT_MAX, as every float
distance does.) -/
theorem sculpt_expand_spherical_falloff_spec (m : SphericalInput) (vertex : Nat)
    (hvalid0 : m.symmValid 0 = true)
    (hbound : ∀ v i, len_v3v3 (m.co v) (m.co i) ≤ FLT_MAXR)
    (i : Nat) (hi : i < m.totvert) :
    IsLeast {r : ℝ | ∃ v, v ∈ sphericalOrigins m vertex ∧
        r = len_v3v3 (m.co v) (m.co i)}
      (sculpt_expand_spherical_falloff_create m vertex i) := by
  have hmem : vertex ∈ sphericalOrigins m vertex := by
    unfold sphericalOrigins
    apply List.mem_filterMap.mpr
    refine ⟨0, by simp, ?_⟩
    rw [if_pos hvalid0]
    simp [sphericalOriginOf]
  have hne : sphericalOrigins m vertex ≠ [] := by
    intro h
    rw [h] at hmem
    exact List.not_mem_nil _ hmem
  have heval : sculpt_expand_spherical_falloff_create m vertex i
      = ((sphericalOrigins m vertex).map
          (fun v => len_v3v3 (m.co v) (m.co i))).foldl min FLT_MAXR := by
    unfold sculpt_expand_spherical_falloff_create sphericalOrigins
    exact spherical_fold_gen m vertex i hi (List.range (m.symm + 1)) _
  have hmapne : (sphericalOrigins m vertex).map
      (fun v => len_v3v3 (m.co v) (m.co i)) ≠ [] := by
    simp [hne]
  have hdom : ∀ x, x ∈ (sphericalOrigins m vertex).map
      (fun v => len_v3v3 (m.co v) (m.co i)) → x ≤ FLT_MAXR := by
    intro x hx
    obtain ⟨v, _, rfl⟩ := List.mem_map.mp hx
    exact hbound v i
  have hleast := foldl_min_isLeast _ FLT_MAXR hmapne hdom
  rw [heval]
  have hset : {r : ℝ | ∃ v, v ∈ sphericalOrigins m vertex ∧
      r = len_v3v3 (m.co v) (m.co i)}
      = {r : ℝ | r ∈ (sphericalOrigins m vertex).map
          (fun v => len_v3v3 (m.co v) (m.co i))} := by
    ext r
    simp only [Set.mem_setOf_eq, List.mem_map]
    constructor
    · rintro ⟨v, hv, rfl⟩
      exact ⟨v, hv, rfl⟩
    · rintro ⟨v, hv, rfl⟩
      exact ⟨v, hv, rfl⟩
  rw [hset]
  exact hleast

/-- Witness for the C7 theorem on a one-vertex mesh at the origin. -/
theorem sculpt_expand_spherical_falloff_spec_witness :
    IsLeast {r : ℝ | ∃ v, v ∈ sphericalOrigins c7WitnessInput 0 ∧
        r = len_v3v3 (c7WitnessInput.co v) (c7WitnessInput.co 0)}
      (sculpt_expand_spherical_falloff_create c7WitnessInput 0 0) := by
  apply sculpt_expand_spherical_falloff_spec c7WitnessInput 0 rfl ?_ 0
    (by norm_num [c7WitnessInput])
  intro v i
  have hz : len_v3v3 (c7WitnessInput.co v) (c7WitnessInput.co i) = 0 := by
    simp [c7WitnessInput, len_v3v3]
  rw [hz]
  unfold FLT_MAXR
  norm_num

/-- A leak scan arm reports true iff some scanned index is out of range
(canvas edge) or holds a boundary red pixel. -/
theorem leakScan_iff (c : GpImBuf) (inB : Int → Bool) :
    ∀ pts : List Int, leakScan c inB pts = true ↔
      ∃ pt, pt ∈ pts ∧ (inB pt = false ∨ (get_pixel c pt).1 = 1) := by
  intro pts
  induction pts with
  | nil => simp [leakScan]
  | cons pt rest ih =>
    unfold leakScan
    by_cases hin : inB pt = true
    · rw [if_pos hin]
      by_cases hred : (get_pixel c pt).1 = 1
      · rw [if_pos hred]
        exact ⟨fun _ => ⟨pt, List.mem_cons_self _ _, Or.inr hred⟩, fun _ => rfl⟩
      · rw [if_neg hred, ih]
        constructor
        · rintro ⟨q, hq, hcond⟩
          exact ⟨q, List.mem_cons_of_mem _ hq, hcond⟩
        · rintro ⟨q, hq, hcond⟩
          rcases List.mem_cons.mp hq with hq1 | hq1
          · subst hq1
            rcases hcond with h | h
            · rw [hin] at h; cases h
            · exact absurd h hred
          · exact ⟨q, hq1, hcond⟩
    · have hinf : inB pt = false := by
        cases h : inB pt
        · rfl
        · exact absurd h hin
      rw [if_neg hin]
      exact ⟨fun _ => ⟨pt, List.mem_cons_self _ _, Or.inl hinf⟩, fun _ => rfl⟩

/-- Membership in the ascending offset list of the horizontal leak scan. -/
theorem mem_intRange1 (limit i : Int) :
    i ∈ intRange1 limit ↔ 1 ≤ i ∧ i ≤ limit := by
  unfold intRange1
  constructor
  · intro hmem
    obtain ⟨k, hk, hke⟩ := List.mem_map.mp hmem
    rw [List.mem_range] at hk
    omega
  · rintro ⟨h1, h2⟩
    exact List.mem_map.mpr
      ⟨(i - 1).toNat, List.mem_range.mpr (by omega), by omega⟩

/-- Membership in the descending offset list of the vertical leak scan. -/
theorem mem_intRangeDesc (limit i : Int) :
    i ∈ intRangeDesc limit ↔ 1 ≤ i ∧ i ≤ limit := by
  unfold intRangeDesc
  constructor
  · intro hmem
    obtain ⟨k, hk, hke⟩ := List.mem_map.mp hmem
    rw [List.mem_range] at hk
    omega
  · rintro ⟨h1, h2⟩
    exact List.mem_map.mpr
      ⟨(limit - i).toNat, List.mem_range.mpr (by omega), by omega⟩

set_option maxRecDepth 40000 in
/-- C4: the leak suppression test.  A push in the horizontal direction is
suppressed iff within `limit` pixels both above and below the evaluated
pixel a red pixel or the canvas edge (maxpixel above, 0 below) is found; a
vertical push likewise scans left and right within the pixel row bounds.
On the concrete bordered canvas with a two-pixel gap in a vertical wall,
the fill with leak gap 2 terminates without painting any pixel right of
the wall green, and the fill with leak gap 0 terminates having crossed the
gap. -/
theorem is_leak_narrow_and_gap_spec :
    (∀ (c : GpImBuf) (maxpixel limit index : Int),
      is_leak_narrow c maxpixel limit index LEAK_HORZ = true ↔
        ((∃ i : Int, 1 ≤ i ∧ i ≤ limit ∧
            (maxpixel < index + c.x * i ∨ (get_pixel c (index + c.x * i)).1 = 1)) ∧
         (∃ i : Int, 1 ≤ i ∧ i ≤ limit ∧
            (index - c.x * i < 0 ∨ (get_pixel c (index - c.x * i)).1 = 1)))) ∧
    (∀ (c : GpImBuf) (maxpixel limit index : Int),
      is_leak_narrow c maxpixel limit index LEAK_VERT = true ↔
        ((∃ i : Int, 1 ≤ i ∧ i ≤ limit ∧
            (index - i < Int.tdiv index c.x * c.x ∨
              (get_pixel c (index - i)).1 = 1)) ∧
         (∃ i : Int, 1 ≤ i ∧ i ≤ limit ∧
            (Int.tdiv index c.x * c.x + c.x - 1 < index + i ∨
              (get_pixel c (index + i)).1 = 1)))) ∧
    ((gpencil_boundaryfill_area 2 400 c4Canvas).2 = [] ∧
      ∀ i : Int, i ∈ [11, 12, 18, 19, 25, 26, 32, 33] →
        ((gpencil_boundaryfill_area 2 400 c4Canvas).1.px i).2.1 ≠ 1) ∧
    ((gpencil_boundaryfill_area 0 400 c4Canvas).2 = [] ∧
      ((gpencil_boundaryfill_area 0 400 c4Canvas).1.px 19).2.1 = 1 ∧
      ((gpencil_boundaryfill_area 0 400 c4Canvas).1.px 26).2.1 = 1) := by
  refine ⟨?_, ?_, ⟨by decide, ?_⟩, by decide⟩
  · intro c maxpixel limit index
    have hunf : is_leak_narrow c maxpixel limit index LEAK_HORZ
        = (leakScan c (fun pt => decide (pt ≤ maxpixel))
            ((intRange1 limit).map (fun i => index + c.x * i))
          && leakScan c (fun pt => decide (0 ≤ pt))
            ((intRange1 limit).map (fun i => index - c.x * i))) := rfl
    rw [hunf, Bool.and_eq_true, leakScan_iff, leakScan_iff]
    apply and_congr
    · constructor
      · rintro ⟨pt, hmem, hcond⟩
        obtain ⟨i, hi, rfl⟩ := List.mem_map.mp hmem
        obtain ⟨h1, h2⟩ := (mem_intRange1 limit i).mp hi
        refine ⟨i, h1, h2, ?_⟩
        rcases hcond with h | h
        · exact Or.inl (by have := of_decide_eq_false h; omega)
        · exact Or.inr h
      · rintro ⟨i, h1, h2, hcond⟩
        refine ⟨index + c.x * i,
          List.mem_map.mpr ⟨i, (mem_intRange1 limit i).mpr ⟨h1, h2⟩, rfl⟩, ?_⟩
        rcases hcond with h | h
        · exact Or.inl (decide_eq_false (by omega))
        · exact Or.inr h
    · constructor
      · rintro ⟨pt, hmem, hcond⟩
        obtain ⟨i, hi, rfl⟩ := List.mem_map.mp hmem
        obtain ⟨h1, h2⟩ := (mem_intRange1 limit i).mp hi
        refine ⟨i, h1, h2, ?_⟩
        rcases hcond with h | h
        · exact Or.inl (by have := of_decide_eq_false h; omega)
        · exact Or.inr h
      · rintro ⟨i, h1, h2, hcond⟩
        refine ⟨index - c.x * i,
          List.mem_map.mpr ⟨i, (mem_intRange1 limit i).mpr ⟨h1, h2⟩, rfl⟩, ?_⟩
        rcases hcond with h | h
        · exact Or.inl (decide_eq_false (by omega))
        · exact Or.inr h
  · intro c maxpixel limit index
    have hunf : is_leak_narrow c maxpixel limit index LEAK_VERT
        = (leakScan c (fun pt => decide (Int.tdiv index c.x * c.x ≤ pt))
            ((intRangeDesc limit).map (fun i => index - i))
          && leakScan c (fun pt => decide (pt ≤ Int.tdiv index c.x * c.x + c.x - 1))
            ((intRangeDesc limit).map (fun i => index + i))) := rfl
    rw [hunf, Bool.and_eq_true, leakScan_iff, leakScan_iff]
    apply and_congr
    · constructor
      · rintro ⟨pt, hmem, hcond⟩
        obtain ⟨i, hi, rfl⟩ := List.mem_map.mp hmem
        obtain ⟨h1, h2⟩ := (mem_intRangeDesc limit i).mp hi
        refine ⟨i, h1, h2, ?_⟩
        rcases hcond with h | h
        · exact Or.inl (by have := of_decide_eq_false h; omega)
        · exact Or.inr h
      · rintro ⟨i, h1, h2, hcond⟩
        refine ⟨index - i,
          List.mem_map.mpr ⟨i, (mem_intRangeDesc limit i).mpr ⟨h1, h2⟩, rfl⟩, ?_⟩
        rcases hcond with h | h
        · exact Or.inl (decide_eq_false (by omega))
        · exact Or.inr h
    · constructor
      · rintro ⟨pt, hmem, hcond⟩
        obtain ⟨i, hi, rfl⟩ := List.mem_map.mp hmem
        obtain ⟨h1, h2⟩ := (mem_intRangeDesc limit i).mp hi
        refine ⟨i, h1, h2, ?_⟩
        rcases hcond with h | h
        · exact Or.inl (by have := of_decide_eq_false h; omega)
        · exact Or.inr h
      · rintro ⟨i, h1, h2, hcond⟩
        refine ⟨index + i,
          List.mem_map.mpr ⟨i, (mem_intRangeDesc limit i).mpr ⟨h1, h2⟩, rfl⟩, ?_⟩
        rcases hcond with h | h
        · exact Or.inl (decide_eq_false (by omega))
        · exact Or.inr h
  · intro i hi
    fin_cases hi <;> decide

/-- The flood loop does nothing on an empty stack, whatever the fuel. -/
theorem gpencil_boundaryfill_loop_nil (leak : Int) (c : GpImBuf) :
    ∀ fuel, gpencil_boundaryfill_loop leak fuel c [] = (c, []) := by
  intro fuel
  cases fuel with
  | zero => rfl
  | succ n => rfl

/-- A seed scan over a blueless range finds nothing. -/
theorem seedScanGo_none (c : GpImBuf) :
    ∀ (n : Nat) (i : Int),
      (∀ k : Nat, k < n → (get_pixel c (i + k)).2.2.1 ≠ 1) →
      seedScanGo c n i = none := by
  intro n
  induction n with
  | zero => intro i _; rfl
  | succ n ih =>
    intro i h
    unfold seedScanGo
    rw [if_neg (by simpa using h 0 (Nat.succ_pos n))]
    apply ih
    intro k hk
    have hnext := h (k + 1) (by omega)
    have harith : i + 1 + (k : Int) = i + ((k + 1 : Nat) : Int) := by
      push_cast
      ring
    rw [harith]
    exact hnext

/-- A seed scan finds the first blue index of its range. -/
theorem seedScanGo_first (c : GpImBuf) :
    ∀ (n : Nat) (i j : Int), i ≤ j → j < i + n →
      (get_pixel c j).2.2.1 = 1 →
      (∀ j2 : Int, i ≤ j2 → j2 < j → (get_pixel c j2).2.2.1 ≠ 1) →
      seedScanGo c n i = some j := by
  intro n
  induction n with
  | zero =>
    intro i j h1 h2 _ _
    exfalso
    omega
  | succ n ih =>
    intro i j h1 h2 hblue hfirst
    unfold seedScanGo
    by_cases hij : i = j
    · rw [hij, if_pos hblue]
    · have hlt : i < j := lt_of_le_of_ne h1 hij
      rw [if_neg (hfirst i (le_refl i) hlt)]
      apply ih (i + 1) j (by omega) (by push_cast at h2 ⊢; omega) hblue
      intro j2 hj2 hj2b
      exact hfirst j2 (by omega) hj2b

/-- C10: the fill seed is located by scanning the linear pixel indices
0 .. width*height - 2 in increasing order for the first pixel whose blue
channel equals 1 (the recorded click position is not consulted, and the
last index width*height - 1 is never examined); when no such pixel exists
the fill loop performs no iterations and every pixel is left unchanged. -/
theorem gpencil_boundaryfill_seed_spec (c : GpImBuf) (leak : Int) (fuel : Nat) :
    ((∀ i : Int, 0 ≤ i → i < c.x * c.y - 1 → (get_pixel c i).2.2.1 ≠ 1) →
      gpencil_boundaryfill_area leak fuel c = (c, [])) ∧
    (∀ i : Int, 0 ≤ i → i < c.x * c.y - 1 → (get_pixel c i).2.2.1 = 1 →
      (∀ j : Int, 0 ≤ j → j < i → (get_pixel c j).2.2.1 ≠ 1) →
      gpencil_seed_scan c (c.x * c.y - 1) = some i) := by
  constructor
  · intro h
    have hscan : gpencil_seed_scan c (c.x * c.y - 1) = none := by
      unfold gpencil_seed_scan
      apply seedScanGo_none
      intro k hk
      apply h
      · omega
      · omega
    unfold gpencil_boundaryfill_area
    show (match gpencil_seed_scan c (c.x * c.y - 1) with
      | some i => gpencil_boundaryfill_loop leak fuel c [i]
      | none => gpencil_boundaryfill_loop leak fuel c []) = (c, [])
    rw [hscan]
    exact gpencil_boundaryfill_loop_nil leak c fuel
  · intro i h0 hlt hblue hfirst
    unfold gpencil_seed_scan
    exact seedScanGo_first c _ 0 i h0 (by omega) hblue
      (fun j2 hj2 hj2b => hfirst j2 hj2 hj2b)

/-- Witness for the C10 theorem: a 2 x 2 canvas without any blue pixel is
returned unchanged with an empty stack. -/
theorem gpencil_boundaryfill_seed_spec_witness :
    gpencil_boundaryfill_area 0 5 c10Canvas = (c10Canvas, []) := by
  apply (gpencil_boundaryfill_seed_spec c10Canvas 0 5).1
  intro i hge hlt
  have hxy : c10Canvas.x * c10Canvas.y - 1 = 3 := by decide
  rw [hxy] at hlt
  have hcase : i = 0 ∨ i = 1 ∨ i = 2 := by omega
  rcases hcase with rfl | rfl | rfl <;> decide

/-- Remapping at one pixel leaves all other pixels alone. -/
theorem gpInvertPixel_other (c : GpImBuf) (u v : Int) (huv : v ≠ u) :
    (gpInvertPixel c u).px v = c.px v := by
  unfold gpInvertPixel set_pixel upd
  simp [huv]

/-- Remapping at one pixel stores the classification of its old value. -/
theorem gpInvertPixel_self (c : GpImBuf) (u : Int) :
    (gpInvertPixel c u).px u = gpInvertRemap (get_pixel c u) := by
  unfold gpInvertPixel set_pixel upd
  simp

/-- A fold of pixel remaps changes nothing outside the visited indices. -/
theorem foldl_invert_not_mem (l : List Int) :
    ∀ (c : GpImBuf) (v : Int), v ∉ l →
      (l.foldl gpInvertPixel c).px v = c.px v := by
  induction l with
  | nil => intro c v _; rfl
  | cons u l ih =>
    intro c v hv
    rw [List.foldl_cons, ih _ v (fun h => hv (List.mem_cons_of_mem _ h))]
    exact gpInvertPixel_other c u v (fun h => hv (h ▸ List.mem_cons_self _ _))

/-- A fold of pixel remaps over distinct indices remaps each visited pixel
exactly once, from its original value. -/
theorem foldl_invert_mem (l : List Int) :
    ∀ (c : GpImBuf) (v : Int), l.Nodup → v ∈ l →
      (l.foldl gpInvertPixel c).px v = gpInvertRemap (c.px v) := by
  induction l with
  | nil => intro c v _ h; exact absurd h (List.not_mem_nil v)
  | cons u l ih =>
    intro c v hnd hv
    rw [List.foldl_cons]
    by_cases hvu : v = u
    · rw [hvu, foldl_invert_not_mem l _ u (List.nodup_cons.mp hnd).1]
      exact gpInvertPixel_self c u
    · have hvl : v ∈ l := by
        rcases List.mem_cons.mp hv with h | h
        · exact absurd h hvu
        · exact h
      rw [ih _ v (List.nodup_cons.mp hnd).2 hvl,
        gpInvertPixel_other c u v hvu]

/-- The remap fold keeps the canvas dimensions. -/
theorem foldl_invert_dims (l : List Int) :
    ∀ c : GpImBuf, (l.foldl gpInvertPixel c).x = c.x ∧
      (l.foldl gpInvertPixel c).y = c.y := by
  induction l with
  | nil => intro c; exact ⟨rfl, rfl⟩
  | cons u l ih =>
    intro c
    rw [List.foldl_cons]
    exact ih (gpInvertPixel c u)

/-- Membership in the reverse index list of the invert loop. -/
theorem mem_gpReverseIndices (maxpixel v : Int) :
    v ∈ gpReverseIndices maxpixel ↔ 1 ≤ v ∧ v ≤ maxpixel := by
  unfold gpReverseIndices
  constructor
  · intro hmem
    obtain ⟨k, hk, hke⟩ := List.mem_map.mp hmem
    rw [List.mem_range] at hk
    omega
  · rintro ⟨h1, h2⟩
    exact List.mem_map.mpr
      ⟨(maxpixel - v).toNat, List.mem_range.mpr (by omega), by omega⟩

/-- The reverse index list of the invert loop has no repetitions. -/
theorem nodup_gpReverseIndices (maxpixel : Int) :
    (gpReverseIndices maxpixel).Nodup := by
  unfold gpReverseIndices
  refine List.Nodup.map ?_ (List.nodup_range _)
  intro a b hab
  dsimp only at hab
  omega

/-- Pointwise behavior of one invert pass: pixels 1..maxpixel are
remapped from their old value, every other pixel (index 0 included) is
untouched. -/
theorem gpencil_invert_image_px (c : GpImBuf) (v : Int) :
    get_pixel (gpencil_invert_image c) v
      = if 1 ≤ v ∧ v ≤ c.x * c.y - 1 then gpInvertRemap (get_pixel c v)
        else get_pixel c v := by
  unfold gpencil_invert_image get_pixel
  by_cases hv : 1 ≤ v ∧ v ≤ c.x * c.y - 1
  · rw [if_pos hv]
    exact foldl_invert_mem _ c v (nodup_gpReverseIndices _)
      ((mem_gpReverseIndices _ v).mpr hv)
  · rw [if_neg hv]
    exact foldl_invert_not_mem _ c v (fun h => hv ((mem_gpReverseIndices _ v).mp h))

/-- One invert pass keeps the canvas dimensions. -/
theorem gpencil_invert_image_dims (c : GpImBuf) :
    (gpencil_invert_image c).x = c.x ∧ (gpencil_invert_image c).y = c.y :=
  foldl_invert_dims _ c

/-- Classification round trip of the remap table. -/
theorem gpInvertRemap_double (p : Px) :
    (p.2.1 = 1 → gpInvertRemap (gpInvertRemap p) = (0, 1, 0, 1)) ∧
    (p.2.1 ≠ 1 → p.1 = 1 → gpInvertRemap (gpInvertRemap p) = (1, 0, 0, 1)) ∧
    (p.2.1 ≠ 1 → p.1 ≠ 1 → gpInvertRemap (gpInvertRemap p) = (0, 0, 0, 0)) := by
  refine ⟨?_, ?_, ?_⟩
  · intro h1
    have hin : gpInvertRemap p = (1, 0, 0, 1) := by
      unfold gpInvertRemap
      rw [if_pos h1]
    rw [hin]
    unfold gpInvertRemap
    norm_num
  · intro h1 h2
    have hin : gpInvertRemap p = (0, 1, 0, 1) := by
      unfold gpInvertRemap
      rw [if_neg h1, if_pos h2]
    rw [hin]
    unfold gpInvertRemap
    norm_num
  · intro h1 h2
    have hin : gpInvertRemap p = (0, 0, 0, 0) := by
      unfold gpInvertRemap
      rw [if_neg h1, if_neg h2]
    rw [hin]
    unfold gpInvertRemap
    norm_num

/-- C8 (amended): applying invert twice restores the red/green
classification for every pixel index from 1 to width*height - 1: pixels
classified green (green channel 1) end as pure green, pixels classified
red (red 1, green not 1) end as pure red, and every other such pixel ends
as transparent background.  Pixel 0 is exempt: the reverse loop
`for (v = maxpixel; v != 0; v--)` stops before it, so no pass ever remaps
pixel 0. -/
theorem gpencil_invert_image_double_spec (c : GpImBuf) (v : Int)
    (h1 : 1 ≤ v) (h2 : v ≤ c.x * c.y - 1) :
    (((get_pixel c v).2.1 = 1 →
        get_pixel (gpencil_invert_image (gpencil_invert_image c)) v
          = (0, 1, 0, 1)) ∧
     ((get_pixel c v).2.1 ≠ 1 → (get_pixel c v).1 = 1 →
        get_pixel (gpencil_invert_image (gpencil_invert_image c)) v
          = (1, 0, 0, 1)) ∧
     ((get_pixel c v).2.1 ≠ 1 → (get_pixel c v).1 ≠ 1 →
        get_pixel (gpencil_invert_image (gpencil_invert_image c)) v
          = (0, 0, 0, 0))) ∧
    get_pixel (gpencil_invert_image c) 0 = get_pixel c 0 := by
  have hdims := gpencil_invert_image_dims c
  have hq : get_pixel (gpencil_invert_image (gpencil_invert_image c)) v
      = gpInvertRemap (gpInvertRemap (get_pixel c v)) := by
    rw [gpencil_invert_image_px (gpencil_invert_image c) v, hdims.1, hdims.2,
      if_pos ⟨h1, h2⟩, gpencil_invert_image_px c v, if_pos ⟨h1, h2⟩]
  have hzero : get_pixel (gpencil_invert_image c) 0 = get_pixel c 0 := by
    rw [gpencil_invert_image_px c 0, if_neg (by omega)]
  obtain ⟨d1, d2, d3⟩ := gpInvertRemap_double (get_pixel c v)
  exact ⟨⟨fun h => by rw [hq]; exact d1 h,
          fun ha hb => by rw [hq]; exact d2 ha hb,
          fun ha hb => by rw [hq]; exact d3 ha hb⟩, hzero⟩

/-- Witness for the amended C8 theorem at pixel 1 of the 2 x 2 canvas. -/
theorem gpencil_invert_image_double_spec_witness :
    (((get_pixel c8Canvas 1).2.1 = 1 →
        get_pixel (gpencil_invert_image (gpencil_invert_image c8Canvas)) 1
          = (0, 1, 0, 1)) ∧
     ((get_pixel c8Canvas 1).2.1 ≠ 1 → (get_pixel c8Canvas 1).1 = 1 →
        get_pixel (gpencil_invert_image (gpencil_invert_image c8Canvas)) 1
          = (1, 0, 0, 1)) ∧
     ((get_pixel c8Canvas 1).2.1 ≠ 1 → (get_pixel c8Canvas 1).1 ≠ 1 →
        get_pixel (gpencil_invert_image (gpencil_invert_image c8Canvas)) 1
          = (0, 0, 0, 0))) ∧
    get_pixel (gpencil_invert_image c8Canvas) 0 = get_pixel c8Canvas 0 :=
  gpencil_invert_image_double_spec c8Canvas 1 (by decide) (by decide)

/-- C8 counterexample: the claim as stated also demands that a pixel that
was neither red nor green end as transparent background, but pixel 0 is
never visited by the reverse pass, so a blue pixel at index 0 survives
invert twice unchanged. -/
theorem gpencil_invert_image_pixel_zero_counterexample :
    get_pixel (gpencil_invert_image (gpencil_invert_image c8Canvas)) 0
        = (0, 0, 1, 1) ∧
      (get_pixel c8Canvas 0).2.1 ≠ 1 ∧ (get_pixel c8Canvas 0).1 ≠ 1 ∧
      get_pixel (gpencil_invert_image (gpencil_invert_image c8Canvas)) 0
        ≠ (0, 0, 0, 0) := by
  refine ⟨by decide, by decide, by decide, by decide⟩

/-- Distinct rows of a canvas never share a linear pixel index when the
column offsets stay inside the row width. -/
theorem row_index_ne (W a b m1 m2 : Int)
    (hm1 : 0 ≤ m1) (hm1b : m1 < W) (hm2 : 0 ≤ m2) (hm2b : m2 < W)
    (hab : a ≠ b) : W * a + m1 ≠ W * b + m2 := by
  intro h
  have hd : W * (a - b) = m2 - m1 := by
    rw [mul_sub]
    linarith
  have hW : 0 < W := lt_of_le_of_lt hm1 hm1b
  rcases lt_or_gt_of_ne hab with hlt | hlt
  · have h1 : a - b ≤ -1 := by omega
    have h2 : W * (a - b) ≤ W * (-1) := mul_le_mul_of_nonneg_left h1 (le_of_lt hW)
    have h3 : W * (-1) = -W := by ring
    linarith
  · have h1 : 1 ≤ a - b := by omega
    have h2 : W * 1 ≤ W * (a - b) := mul_le_mul_of_nonneg_left h1 (le_of_lt hW)
    have h3 : W * 1 = W := by ring
    linarith

/-- The erase-scan flag only depends on the pixels of the scanned row
prefix. -/
theorem eraseFlagSpec_congr (c2 c1 : GpImBuf) (idy : Int) (hx : c2.x = c1.x) :
    ∀ n : Nat, (∀ m : Nat, m < n →
        c2.px (c1.x * idy + (m : Int)) = c1.px (c1.x * idy + (m : Int))) →
      eraseFlagSpec c2 idy n = eraseFlagSpec c1 idy n := by
  intro n
  induction n with
  | zero => intro _; rfl
  | succ n ih =>
    intro h
    show (if (get_pixel c2 (c2.x * idy + (n : Int))).2.2.1 = 1 then true
          else if (get_pixel c2 (c2.x * idy + (n : Int))).1 = 1 then false
          else eraseFlagSpec c2 idy n)
        = (if (get_pixel c1 (c1.x * idy + (n : Int))).2.2.1 = 1 then true
          else if (get_pixel c1 (c1.x * idy + (n : Int))).1 = 1 then false
          else eraseFlagSpec c1 idy n)
    have hpx : get_pixel c2 (c2.x * idy + (n : Int))
        = get_pixel c1 (c1.x * idy + (n : Int)) := by
      rw [hx]
      exact h n (Nat.lt_succ_self n)
    rw [hpx, ih (fun m hm => h m (Nat.lt_succ_of_lt hm))]

/-- The erase-scan flag is on after column n - 1 exactly when some scanned
blue pixel is not followed by a red non-blue pixel within the prefix. -/
theorem eraseFlagSpec_iff (c1 : GpImBuf) (idy : Int) :
    ∀ n : Nat, eraseFlagSpec c1 idy n = true ↔
      ∃ j : Nat, j < n ∧ (get_pixel c1 (c1.x * idy + (j : Int))).2.2.1 = 1 ∧
        ∀ k : Nat, j < k → k < n →
          ¬((get_pixel c1 (c1.x * idy + (k : Int))).2.2.1 ≠ 1 ∧
            (get_pixel c1 (c1.x * idy + (k : Int))).1 = 1) := by
  intro n
  induction n with
  | zero =>
    rw [show eraseFlagSpec c1 idy 0 = false from rfl]
    simp
  | succ n ih =>
    show (if (get_pixel c1 (c1.x * idy + (n : Int))).2.2.1 = 1 then true
          else if (get_pixel c1 (c1.x * idy + (n : Int))).1 = 1 then false
          else eraseFlagSpec c1 idy n) = true ↔ _
    by_cases hb : (get_pixel c1 (c1.x * idy + (n : Int))).2.2.1 = 1
    · rw [if_pos hb]
      constructor
      · intro _
        exact ⟨n, Nat.lt_succ_self n, hb,
          fun k hk1 hk2 => False.elim (by omega)⟩
      · intro _
        rfl
    · rw [if_neg hb]
      by_cases hr : (get_pixel c1 (c1.x * idy + (n : Int))).1 = 1
      · rw [if_pos hr]
        constructor
        · intro h
          exact absurd h (by simp)
        · rintro ⟨j, hj, hblue, hk⟩
          exfalso
          rcases Nat.lt_succ_iff_lt_or_eq.mp hj with hjn | hjn
          · exact hk n hjn (Nat.lt_succ_self n) ⟨hb, hr⟩
          · exact hb (hjn ▸ hblue)
      · rw [if_neg hr, ih]
        constructor
        · rintro ⟨j, hj, hblue, hk⟩
          refine ⟨j, Nat.lt_succ_of_lt hj, hblue, fun k hk1 hk2 => ?_⟩
          rcases Nat.lt_succ_iff_lt_or_eq.mp hk2 with h2 | h2
          · exact hk k hk1 h2
          · rw [h2]
            exact fun hc => hr hc.2
        · rintro ⟨j, hj, hblue, hk⟩
          rcases Nat.lt_succ_iff_lt_or_eq.mp hj with hjn | hjn
          · exact ⟨j, hjn, hblue, fun k h1 h2 => hk k h1 (Nat.lt_succ_of_lt h2)⟩
          · exact absurd (hjn ▸ hblue) hb

/-- Invariant of the erase row scan after processing the first n columns:
the flag equals the reference flag, processed columns are cleared exactly
when the flag was on right after reading them, everything else is
untouched. -/
theorem gpEraseStep_fold_spec (c1 : GpImBuf) (idy : Int) :
    ∀ n : Nat, ∀ r : GpImBuf × Bool,
      r = ((List.range n).map (fun k => ((k : Nat) : Int))).foldl
            (gpEraseStep idy) (c1, false) →
      r.1.x = c1.x ∧ r.1.y = c1.y ∧ r.2 = eraseFlagSpec c1 idy n ∧
      (∀ v : Int, (∀ m : Nat, m < n → v ≠ c1.x * idy + (m : Int)) →
        r.1.px v = c1.px v) ∧
      (∀ m : Nat, m < n →
        r.1.px (c1.x * idy + (m : Int))
          = if eraseFlagSpec c1 idy (m + 1) = true then (1, 0, 0, 1)
            else c1.px (c1.x * idy + (m : Int))) := by
  intro n
  induction n with
  | zero =>
    intro r hr
    subst hr
    exact ⟨rfl, rfl, rfl, fun v _ => rfl, fun m hm => absurd hm (Nat.not_lt_zero m)⟩
  | succ n ih =>
    intro r hr
    set F := ((List.range n).map (fun k => ((k : Nat) : Int))).foldl
      (gpEraseStep idy) (c1, false) with hFdef
    obtain ⟨hx, hy, hflag, hun, hproc⟩ := ih F hFdef
    have hsplit : (List.range (n + 1)).map (fun k => ((k : Nat) : Int))
        = (List.range n).map (fun k => ((k : Nat) : Int)) ++ [((n : Nat) : Int)] := by
      rw [List.range_succ, List.map_append]
      rfl
    rw [hsplit, List.foldl_append, List.foldl_cons, List.foldl_nil, ← hFdef] at hr
    have hne2 : ∀ m2 : Nat, m2 < n →
        c1.x * idy + ((n : Nat) : Int) ≠ c1.x * idy + ((m2 : Nat) : Int) := by
      intro m2 hm2 heq
      have h3 := add_left_cancel heq
      omega
    have hread2 : F.1.px (c1.x * idy + ((n : Nat) : Int))
        = c1.px (c1.x * idy + ((n : Nat) : Int)) := hun _ hne2
    have hr2 : r = (if eraseFlagSpec c1 idy (n + 1) = true
        then (set_pixel F.1 (c1.x * idy + ((n : Nat) : Int)) (1, 0, 0, 1),
              eraseFlagSpec c1 idy (n + 1))
        else (F.1, eraseFlagSpec c1 idy (n + 1))) := by
      rw [hr]
      simp only [gpEraseStep, get_pixel, hx, hread2, hflag]
      have hunf : eraseFlagSpec c1 idy (n + 1)
          = (if (c1.px (c1.x * idy + ((n : Nat) : Int))).2.2.1 = 1 then true
            else if (c1.px (c1.x * idy + ((n : Nat) : Int))).1 = 1 then false
            else eraseFlagSpec c1 idy n) := rfl
      rw [hunf]
    by_cases hcl : eraseFlagSpec c1 idy (n + 1) = true
    · rw [if_pos hcl] at hr2
      subst hr2
      refine ⟨hx, hy, rfl, ?_, ?_⟩
      · intro v hv
        have hvI : v ≠ c1.x * idy + ((n : Nat) : Int) := hv n (Nat.lt_succ_self n)
        show upd F.1.px (c1.x * idy + ((n : Nat) : Int)) (1, 0, 0, 1) v = c1.px v
        unfold upd
        rw [if_neg hvI]
        exact hun v (fun m hm => hv m (Nat.lt_succ_of_lt hm))
      · intro m hm
        rcases Nat.lt_succ_iff_lt_or_eq.mp hm with hmlt | hmeq
        · have hIne : c1.x * idy + ((m : Nat) : Int)
              ≠ c1.x * idy + ((n : Nat) : Int) := by
            intro heq
            have h3 := add_left_cancel heq
            omega
          show upd F.1.px (c1.x * idy + ((n : Nat) : Int)) (1, 0, 0, 1)
              (c1.x * idy + ((m : Nat) : Int)) = _
          unfold upd
          rw [if_neg hIne]
          exact hproc m hmlt
        · subst hmeq
          show upd F.1.px (c1.x * idy + ((m : Nat) : Int)) (1, 0, 0, 1)
              (c1.x * idy + ((m : Nat) : Int)) = _
          unfold upd
          rw [if_pos rfl, if_pos hcl]
    · rw [if_neg hcl] at hr2
      subst hr2
      refine ⟨hx, hy, rfl, ?_, ?_⟩
      · intro v hv
        exact hun v (fun m hm => hv m (Nat.lt_succ_of_lt hm))
      · intro m hm
        rcases Nat.lt_succ_iff_lt_or_eq.mp hm with hmlt | hmeq
        · exact hproc m hmlt
        · subst hmeq
          rw [if_neg hcl]
          exact hun _ hne2

/-- One full erase row scan: cleared columns are exactly those whose
reference flag is on, everything outside the row is untouched. -/
theorem gpEraseRow_spec (c1 : GpImBuf) (idy : Int) :
    (gpEraseRow c1 idy).x = c1.x ∧ (gpEraseRow c1 idy).y = c1.y ∧
    (∀ v : Int, (∀ m : Nat, m < c1.x.toNat → v ≠ c1.x * idy + (m : Int)) →
      (gpEraseRow c1 idy).px v = c1.px v) ∧
    (∀ m : Nat, m < c1.x.toNat →
      (gpEraseRow c1 idy).px (c1.x * idy + (m : Int))
        = if eraseFlagSpec c1 idy (m + 1) = true then (1, 0, 0, 1)
          else c1.px (c1.x * idy + (m : Int))) := by
  have h := gpEraseStep_fold_spec c1 idy c1.x.toNat _ rfl
  exact ⟨h.1, h.2.1, h.2.2.2.1, h.2.2.2.2⟩

/-- Invariant of the erase pass over the first r rows: each processed
row is cleared according to its reference flag computed on the stamped
canvas, all other pixels are untouched, and dimensions are kept. -/
theorem gpEraseRows_fold_spec (c1 : GpImBuf) :
    ∀ r : Nat, ∀ C : GpImBuf,
      C = ((List.range r).map (fun k => ((k : Nat) : Int))).foldl gpEraseRow c1 →
      C.x = c1.x ∧ C.y = c1.y ∧
      (∀ v : Int, (∀ idy m : Nat, idy < r → m < c1.x.toNat →
          v ≠ c1.x * (idy : Int) + (m : Int)) → C.px v = c1.px v) ∧
      (∀ idy m : Nat, idy < r → m < c1.x.toNat →
        C.px (c1.x * (idy : Int) + (m : Int))
          = if eraseFlagSpec c1 (idy : Int) (m + 1) = true then (1, 0, 0, 1)
            else c1.px (c1.x * (idy : Int) + (m : Int))) := by
  intro r
  induction r with
  | zero =>
    intro C hC
    subst hC
    exact ⟨rfl, rfl, fun v _ => rfl,
      fun idy m hidy _ => absurd hidy (Nat.not_lt_zero idy)⟩
  | succ r ih =>
    intro C hC
    set P := ((List.range r).map (fun k => ((k : Nat) : Int))).foldl gpEraseRow c1
      with hPdef
    obtain ⟨hPx, hPy, hPun, hPproc⟩ := ih P hPdef
    have hsplit : (List.range (r + 1)).map (fun k => ((k : Nat) : Int))
        = (List.range r).map (fun k => ((k : Nat) : Int)) ++ [((r : Nat) : Int)] := by
      rw [List.range_succ, List.map_append]
      rfl
    rw [hsplit, List.foldl_append, List.foldl_cons, List.foldl_nil, ← hPdef] at hC
    obtain ⟨hrx, hry, hrun, hrproc⟩ := gpEraseRow_spec P ((r : Nat) : Int)
    have hreads : ∀ m : Nat, m < c1.x.toNat →
        P.px (c1.x * ((r : Nat) : Int) + (m : Int))
          = c1.px (c1.x * ((r : Nat) : Int) + (m : Int)) := by
      intro m hm
      apply hPun
      intro idy m2 hidy hm2
      exact row_index_ne c1.x ((r : Nat) : Int) ((idy : Nat) : Int)
        ((m : Nat) : Int) ((m2 : Nat) : Int)
        (by omega) (by omega) (by omega) (by omega) (by omega)
    have hflagr : ∀ n : Nat, n ≤ c1.x.toNat →
        eraseFlagSpec P ((r : Nat) : Int) n = eraseFlagSpec c1 ((r : Nat) : Int) n := by
      intro n hn
      apply eraseFlagSpec_congr P c1 ((r : Nat) : Int) hPx
      intro m hm
      exact hreads m (lt_of_lt_of_le hm hn)
    subst hC
    refine ⟨?_, ?_, ?_, ?_⟩
    · rw [hrx]
      exact hPx
    · rw [hry]
      exact hPy
    · intro v hv
      have h1 : (gpEraseRow P ((r : Nat) : Int)).px v = P.px v := by
        apply hrun
        intro m hm
        have hm2 : m < c1.x.toNat := by
          rw [hPx] at hm
          exact hm
        rw [hPx]
        exact hv r m (Nat.lt_succ_self r) hm2
      rw [h1]
      apply hPun
      intro idy m hidy hm
      exact hv idy m (Nat.lt_succ_of_lt hidy) hm
    · intro idy m hidy hm
      rcases Nat.lt_succ_iff_lt_or_eq.mp hidy with hlt | heq
      · have h1 : (gpEraseRow P ((r : Nat) : Int)).px (c1.x * (idy : Int) + (m : Int))
            = P.px (c1.x * (idy : Int) + (m : Int)) := by
          apply hrun
          intro m2 hm2
          have hm2c : m2 < c1.x.toNat := by
            rw [hPx] at hm2
            exact hm2
          rw [hPx]
          exact row_index_ne c1.x ((idy : Nat) : Int) ((r : Nat) : Int)
            ((m : Nat) : Int) ((m2 : Nat) : Int)
            (by omega) (by omega) (by omega) (by omega) (by omega)
        rw [h1]
        exact hPproc idy m hlt hm
      · subst heq
        have hmP : m < P.x.toNat := by
          rw [hPx]
          exact hm
        have h2 := hrproc m hmP
        rw [hPx] at h2
        rw [h2, hflagr (m + 1) (by omega), hreads m hm]

/-- Stamping stroke points keeps the canvas dimensions. -/
theorem stamp_fold_dims (pts : List (Int × Int)) :
    ∀ c : GpImBuf,
      ((pts.foldl (fun cc p => set_pixel cc (cc.x * p.2 + p.1) (0, 0, 1, 1)) c).x
          = c.x ∧
       (pts.foldl (fun cc p => set_pixel cc (cc.x * p.2 + p.1) (0, 0, 1, 1)) c).y
          = c.y) := by
  induction pts with
  | nil => intro c; exact ⟨rfl, rfl⟩
  | cons p pts ih =>
    intro c
    rw [List.foldl_cons]
    exact ih _

/-- C9 (amended): after the stroke points are stamped blue, each row scan
clears to the red no-op color exactly the pixels at or to the right of a
blue-marked pixel of the stamped row with no red non-blue pixel strictly
in between: the blue entry pixel itself is cleared, and the cleared run
extends to the end of the row when no red pixel follows (not only to the
next red pixel); all other pixels keep their stamped value. -/
theorem gpencil_erase_processed_area_spec (c : GpImBuf) (pts : List (Int × Int))
    (c1 : GpImBuf)
    (hc1 : c1 = pts.foldl (fun cc p => set_pixel cc (cc.x * p.2 + p.1) (0, 0, 1, 1)) c)
    (hne : pts ≠ []) (idy m : Nat) (hidy : idy < c.y.toNat) (hm : m < c.x.toNat) :
    ((∃ j : Nat, j ≤ m ∧
        (get_pixel c1 (c.x * (idy : Int) + (j : Int))).2.2.1 = 1 ∧
        ∀ k : Nat, j < k → k ≤ m →
          ¬((get_pixel c1 (c.x * (idy : Int) + (k : Int))).2.2.1 ≠ 1 ∧
            (get_pixel c1 (c.x * (idy : Int) + (k : Int))).1 = 1)) →
      get_pixel (gpencil_erase_processed_area c pts)
        (c.x * (idy : Int) + (m : Int)) = (1, 0, 0, 1)) ∧
    ((¬∃ j : Nat, j ≤ m ∧
        (get_pixel c1 (c.x * (idy : Int) + (j : Int))).2.2.1 = 1 ∧
        ∀ k : Nat, j < k → k ≤ m →
          ¬((get_pixel c1 (c.x * (idy : Int) + (k : Int))).2.2.1 ≠ 1 ∧
            (get_pixel c1 (c.x * (idy : Int) + (k : Int))).1 = 1)) →
      get_pixel (gpencil_erase_processed_area c pts)
        (c.x * (idy : Int) + (m : Int))
        = get_pixel c1 (c.x * (idy : Int) + (m : Int))) := by
  have hdims := stamp_fold_dims pts c
  rw [← hc1] at hdims
  have harea : gpencil_erase_processed_area c pts
      = ((List.range c1.y.toNat).map (fun k => ((k : Nat) : Int))).foldl
          gpEraseRow c1 := by
    rw [hc1]
    unfold gpencil_erase_processed_area intRange0
    rw [if_neg hne]
  obtain ⟨hCx, hCy, hCun, hCproc⟩ := gpEraseRows_fold_spec c1 c1.y.toNat _ rfl
  have hmc1 : m < c1.x.toNat := by
    rw [hdims.1]
    exact hm
  have hidyc1 : idy < c1.y.toNat := by
    rw [hdims.2]
    exact hidy
  have hpx := hCproc idy m hidyc1 hmc1
  rw [hdims.1] at hpx
  have hiff := eraseFlagSpec_iff c1 ((idy : Nat) : Int) (m + 1)
  rw [hdims.1] at hiff
  constructor
  · intro hex
    have hflag : eraseFlagSpec c1 ((idy : Nat) : Int) (m + 1) = true := by
      rw [hiff]
      obtain ⟨j, hj, hblue, hk⟩ := hex
      exact ⟨j, by omega, hblue, fun k hk1 hk2 => hk k hk1 (by omega)⟩
    rw [harea]
    show (((List.range c1.y.toNat).map (fun k => ((k : Nat) : Int))).foldl
        gpEraseRow c1).px (c.x * (idy : Int) + (m : Int)) = (1, 0, 0, 1)
    rw [hpx, if_pos hflag]
  · intro hnex
    have hnottrue : ¬ eraseFlagSpec c1 ((idy : Nat) : Int) (m + 1) = true := by
      rw [hiff]
      rintro ⟨j, hj, hblue, hk⟩
      exact hnex ⟨j, by omega, hblue, fun k hk1 hk2 => hk k hk1 (by omega)⟩
    rw [harea]
    show (((List.range c1.y.toNat).map (fun k => ((k : Nat) : Int))).foldl
        gpEraseRow c1).px (c.x * (idy : Int) + (m : Int))
      = get_pixel c1 (c.x * (idy : Int) + (m : Int))
    rw [hpx, if_neg hnottrue]
    rfl

/-- Witness for the amended C9 theorem: on the 3 x 1 canvas with the blue
stamp at column 1 and no red pixel, column 2 is cleared to red. -/
theorem gpencil_erase_processed_area_spec_witness :
    get_pixel (gpencil_erase_processed_area c9Canvas [(1, 0)])
      (c9Canvas.x * ((0 : Nat) : Int) + ((2 : Nat) : Int)) = (1, 0, 0, 1) := by
  have h := gpencil_erase_processed_area_spec c9Canvas [(1, 0)] _ rfl
    (by decide) 0 2 (by decide) (by decide)
  apply h.1
  refine ⟨1, by decide, by decide, ?_⟩
  intro k hk1 hk2
  interval_cases k
  decide

/-- C9 counterexample to the claim as stated: on the 3 x 1 background
canvas with the single stroke point (1, 0), the stamped canvas is blue at
index 1 and has no red pixel, yet the row scan clears the blue entry
pixel 1 itself and clears pixel 2 even though no red-marked pixel follows
in the row; the claim says pixels are cleared only strictly between a
blue entry and the NEXT red pixel, so neither pixel may be cleared. -/
theorem gpencil_erase_processed_area_entry_counterexample :
    (get_pixel (set_pixel c9Canvas 1 (0, 0, 1, 1)) 1).2.2.1 = 1 ∧
    (get_pixel (set_pixel c9Canvas 1 (0, 0, 1, 1)) 0).1 ≠ 1 ∧
    (get_pixel (set_pixel c9Canvas 1 (0, 0, 1, 1)) 2).1 ≠ 1 ∧
    get_pixel (gpencil_erase_processed_area c9Canvas [(1, 0)]) 1 = (1, 0, 0, 1) ∧
    get_pixel (gpencil_erase_processed_area c9Canvas [(1, 0)]) 2 = (1, 0, 0, 1) := by
  refine ⟨by decide, by decide, by decide, by decide, by decide⟩
